import Mathlib

set_option maxHeartbeats 1000000

/-!
Verification development for the devkill scan-and-delete engine.

The embedding models the Go sources directly:
* `FSNode` is a directory tree as observed through `os.Root.FS()`:
  regular files with a byte size, directories with an ordered child
  listing (the order `fs.ReadDir` yields), symbolic-link directories
  (reported with `ModeSymlink` set and never descended), and
  directories whose child listing fails (`badDir`), either with a
  permission error or another I/O error.
* Cancellation (`context.Context`) is modelled by a callback-count
  budget: the walk checks `ctx.Err()` at the top of every `WalkDir`
  callback, so `isCanceled` is consulted once per callback with a
  monotone counter threaded through the whole scan (including nested
  `dirSize` walks, which share the same context).
* The progress throttle (`time.Since(lastProgress) > 200ms`) is a
  boolean oracle consulted once per non-forced `sendProgress` call.
* Paths are the slash-separated strings the walk builds via
  `path.Join`; `filepath.FromSlash` is the identity on Unix.
-/

/-- Filesystem errors distinguished by the scanner: `fs.ErrPermission`
versus any other I/O error. -/
inductive FsErr where
  | permission
  | other (msg : String)
deriving DecidableEq, Repr

/-- A filesystem tree as enumerated by `fs.WalkDir` over the confined
root handle. `dir` children are listed in `ReadDir` order. `linkDir` is
a directory entry with the `ModeSymlink` type bit set (the walk never
descends it). `badDir` is a directory whose `ReadDir` fails with the
given error. -/
inductive FSNode where
  | file (size : Nat)
  | dir (entries : List (String × FSNode))
  | linkDir (entries : List (String × FSNode))
  | badDir (e : FsErr)

/-- Cancellation model: `ctx.Err() != nil` exactly when the number of
callback invocations so far has reached the budget. -/
def isCanceled (cancelAt : Option Nat) (calls : Nat) : Bool :=
  match cancelAt with
  | some k => decide (k ≤ calls)
  | none => false

/-- Result of the `dirSize` walk: total size, cancellation, or a
filesystem error propagated out of the walk. -/
inductive SizeR where
  | ok (size : Nat)
  | cancelled
  | fail (e : FsErr)
deriving DecidableEq, Repr

mutual
/-- Embeds `dirSize` (src/unnamed/part_001): an `fs.WalkDir` whose
callback checks `ctx.Err()` first, propagates listing errors verbatim,
returns `fs.SkipDir` for symlink directories, descends plain
directories, and accumulates `info.Size()` for non-directory entries.
`SkipDir` for a directory is absorbed by `walkDir`, so a symlink
directory contributes zero. The `Nat` component is the threaded
callback counter. -/
def dirSize (cancelAt : Option Nat) (n : FSNode) (calls : Nat) : SizeR × Nat :=
  if isCanceled cancelAt calls then (SizeR.cancelled, calls + 1)
  else
    match n with
    | FSNode.file sz => (SizeR.ok sz, calls + 1)
    | FSNode.linkDir _ => (SizeR.ok 0, calls + 1)
    | FSNode.dir es => dirSizeEntries cancelAt es (calls + 1)
    | FSNode.badDir e =>
      -- ReadDir fails: walkDir invokes the callback a second time with
      -- the error; the callback checks ctx, then returns the error.
      if isCanceled cancelAt (calls + 1) then (SizeR.cancelled, calls + 2)
      else (SizeR.fail e, calls + 2)

/-- Child loop of the `dirSize` walk: sizes accumulate; the first
failure aborts. -/
def dirSizeEntries (cancelAt : Option Nat) (es : List (String × FSNode)) (calls : Nat) :
    SizeR × Nat :=
  match es with
  | [] => (SizeR.ok 0, calls)
  | (_, child) :: rest =>
    match dirSize cancelAt child calls with
    | (SizeR.ok s, c) =>
      match dirSizeEntries cancelAt rest c with
      | (SizeR.ok s2, c2) => (SizeR.ok (s + s2), c2)
      | bad => bad
    | bad => bad
end

mutual
/-- Specification-side size (from the spec text): the total byte size
of all regular files transitively under the node, with symbolic-link
directories excluded and listing errors ignored. -/
def specSize : FSNode → Nat
  | FSNode.file sz => sz
  | FSNode.dir es => specSizeEntries es
  | FSNode.linkDir _ => 0
  | FSNode.badDir _ => 0

/-- Sum of `specSize` over a child list. -/
def specSizeEntries : List (String × FSNode) → Nat
  | [] => 0
  | (_, child) :: rest => specSize child + specSizeEntries rest
end

mutual
/-- No `badDir` anywhere in the tree. -/
def pureTree : FSNode → Bool
  | FSNode.file _ => true
  | FSNode.badDir _ => false
  | FSNode.dir es => pureEntries es
  | FSNode.linkDir es => pureEntries es

/-- `pureTree` over a child list. -/
def pureEntries : List (String × FSNode) → Bool
  | [] => true
  | (_, child) :: rest => pureTree child && pureEntries rest
end

mutual
/-- Every listing failure in the tree is a permission error. -/
def permOnly : FSNode → Bool
  | FSNode.file _ => true
  | FSNode.badDir e => decide (e = FsErr.permission)
  | FSNode.dir es => permOnlyEntries es
  | FSNode.linkDir es => permOnlyEntries es

/-- `permOnly` over a child list. -/
def permOnlyEntries : List (String × FSNode) → Bool
  | [] => true
  | (_, child) :: rest => permOnly child && permOnlyEntries rest
end

/-- A legal directory-entry name: nonempty, not ".", and containing no
path separator (guaranteed by `ReadDir`). -/
def validName (s : String) : Bool :=
  !(s.data.isEmpty) && !(decide (s.data = ['.'])) && !(s.data.contains '/')

mutual
/-- Well-formed tree: every entry name is a legal name and sibling
names are distinct (as `ReadDir` guarantees). -/
def wfTree : FSNode → Bool
  | FSNode.file _ => true
  | FSNode.badDir _ => true
  | FSNode.dir es => wfEntries es
  | FSNode.linkDir es => wfEntries es

/-- `wfTree` over a child list, also requiring the head name to differ
from every later sibling name. -/
def wfEntries : List (String × FSNode) → Bool
  | [] => true
  | (nm, child) :: rest =>
    validName nm && !((rest.map Prod.fst).contains nm) && wfTree child && wfEntries rest
end

/-- Split a character list on the path separator. `splitSlash cs` is the
list of separator-free segments of `cs` (Go: successive components of
the path, empty segments arising from doubled separators included). -/
def splitSlash : List Char → List (List Char)
  | [] => [[]]
  | c :: rest =>
    if c = '/' then [] :: splitSlash rest
    else
      match splitSlash rest with
      | [] => [[c]]
      | t :: ts => (c :: t) :: ts

/-- One step of `filepath.Clean` in component-stack form: a ".."
component backtracks over the last pushed component when one is
available, is dropped at the root of a rooted path, and is kept for a
relative path that cannot backtrack further; any other component is
pushed. This is the standard stack reading of the `lazybuf` scanner in
Go: `out.w > dotdot` is "the stack top is a pushed, non-`..`
component". -/
def cleanStep (rooted : Bool) (stack : List (List Char)) (c : List Char) :
    List (List Char) :=
  if c = ['.', '.'] then
    if stack = [] then (if rooted then [] else [['.', '.']])
    else if stack.getLast? = some ['.', '.'] then stack ++ [['.', '.']]
    else stack.dropLast
  else stack ++ [c]

/-- Join components with the path separator. -/
def joinSlash : List (List Char) → List Char
  | [] => []
  | [x] => x
  | x :: y :: rest => x ++ '/' :: joinSlash (y :: rest)

/-- Embeds `filepath.IsAbs` on Unix: the path starts with the
separator. -/
def isAbs (p : String) : Bool := decide (p.data.take 1 = ['/'])

/-- Embeds `filepath.Clean` on Unix (component-stack form): split on
the separator, drop empty and "." components, process ".." against a
stack, and rejoin, yielding "." for an emptied relative path and a
leading separator for a rooted one. -/
def cleanPath (p : String) : String :=
  if p = "" then "."
  else
    let rooted := isAbs p
    let comps := (splitSlash p.data).filter
      (fun c => !(c.isEmpty) && !(decide (c = ['.'])))
    let stack := comps.foldl (cleanStep rooted) []
    if rooted then String.mk ('/' :: joinSlash stack)
    else if stack = [] then "."
    else String.mk (joinSlash stack)

/-- Embeds `validateDeletePath` (src/model.go): empty paths, paths that
clean to the root "." or to the bare separator, and absolute cleaned
paths are rejected; otherwise the cleaned path is returned.
`string(os.PathSeparator)` is "/" on Unix. -/
def validateDeletePath (relPath : String) : Except String String :=
  if relPath = "" then Except.error ("delete: empty path")
  else
    let cleaned := cleanPath relPath
    if cleaned = "." || cleaned = "/" then
      Except.error ("delete: refusing to delete root")
    else if isAbs cleaned then
      Except.error ("delete: absolute paths are not allowed")
    else Except.ok cleaned

/-- True exactly when `validateDeletePath` fails. -/
def validateFails (relPath : String) : Bool :=
  match validateDeletePath relPath with
  | Except.error _ => true
  | Except.ok _ => false

/-- One delete result event (`deleteResult` in src/model.go). -/
structure DeleteResult where
  Path : String
  Err : Option String
deriving DecidableEq, Repr

/-- Environment of a single deletion: whether the root handle is
non-nil, and the outcome `root.RemoveAll` would report for each cleaned
path (`none` = success). -/
structure DeleteEnv where
  rootPresent : Bool
  removeAll : String → Option String

/-- Embeds `deleteCmd` (src/model.go): re-validate, then call
`RemoveAll` only on success. The boolean records whether `RemoveAll`
was invoked (the filesystem touched). -/
def deleteCmd (env : DeleteEnv) (relPath : String) : DeleteResult × Bool :=
  match validateDeletePath relPath with
  | Except.error e => ({ Path := relPath, Err := some e }, false)
  | Except.ok cleaned =>
    if env.rootPresent then
      ({ Path := cleaned, Err := env.removeAll cleaned }, true)
    else
      ({ Path := cleaned, Err := some ("delete: root handle is nil") }, false)

/-- A target-catalog entry (`TargetDef` in src/targets.go): display
name and category. -/
structure TargetDef where
  Name : String
  Category : String
deriving DecidableEq, Repr

/-- One discovered row (`rowData` in src/model.go). Sizes are byte
counts (`int64` in Go; file sizes are non-negative and sums stay far
below 2^63, so `Nat` is used). -/
structure rowData where
  RelPath : String
  Target : String
  Category : String
  SizeBytes : Nat
  Marked : Bool
  Deleted : Bool
  DeleteErr : String
deriving DecidableEq, Repr

/-- The messages the scan streamer sends on its event channel, plus the
stream-handle message (`scanStreamMsg`, `scanRowMsg`, `scanProgressMsg`,
`scanFinishedMsg` in src/model.go; `Elapsed` is wall-clock time and is
not modelled). -/
inductive ScanMsg where
  | stream (id : Nat)
  | row (id : Nat) (r : rowData)
  | progress (id : Nat) (visited found : Nat)
  | finished (id : Nat) (warnings : List String) (err : Option FsErr)
      (visited found : Nat)
deriving DecidableEq, Repr

/-- The generation ID carried by a scan message. -/
def scanMsgId : ScanMsg → Nat
  | ScanMsg.stream id => id
  | ScanMsg.row id _ => id
  | ScanMsg.progress id _ _ => id
  | ScanMsg.finished id _ _ _ _ => id

/-- The scan walk's threaded counters: visited directories, found
targets, callback count (cancellation clock), throttle consultations. -/
structure WSt where
  visited : Nat
  found : Nat
  calls : Nat
  ticks : Nat
deriving DecidableEq, Repr

/-- How one `fs.WalkDir` subtree call of the scan ends: normally
(including skipped subtrees), by observing cancellation, or by a fatal
filesystem error. -/
inductive WalkR where
  | ok
  | cancelled
  | fail (e : FsErr)
deriving DecidableEq, Repr

/-- Output of one scan-walk subtree call: final counters, the messages
sent on the channel (in order), the permission warnings recorded, and
how the call ended. -/
structure WalkOut where
  st : WSt
  msgs : List ScanMsg
  warns : List String
  res : WalkR
deriving Repr

/-- The scan's per-run parameters (`ScanOptions` plus the scan ID and
the cancellation/throttle oracles). `MaxDepth` is Go `int`. -/
structure ScanParams where
  Targets : List (String × TargetDef)
  SkipDirs : List String
  MaxDepth : Int
  id : Nat
  cancelAt : Option Nat
  throttle : Nat → Bool

/-- Embeds `relativeDepth` (src/unnamed/part_001): trim one leading
"./", then count separators ("." and "" count as zero). -/
def relativeDepth (relPath : String) : Nat :=
  let trimmed := if relPath.startsWith ("./") then relPath.drop 2 else relPath
  if trimmed = "." || trimmed = "" then 0
  else trimmed.data.count '/'

/-- Embeds `path.Join(parent, name)` for a clean relative parent and a
separator-free name (the only shapes the walk produces). -/
def joinRel (p name : String) : String :=
  if p = "." then name else p ++ "/" ++ name

/-- Catalog lookup (`opts.Targets[name]`). -/
def lookupTarget (ts : List (String × TargetDef)) (n : String) : Option TargetDef :=
  (ts.find? (fun e => e.1 == n)).map (fun e => e.2)

mutual
/-- Embeds the `fs.WalkDir` callback of `runScanStream`
(src/unnamed/part_001) applied to one entry, together with `walkDir`'s
descent into it. In order: the ctx check; for directories: visited
counter, throttled progress, skip-name set, symlink skip, depth limit,
target match (size computation, discovery event, forced progress,
`SkipDir`), otherwise descent; a listing failure surfaces as a second
callback whose permission case records a warning and skips the
subtree. `SkipDir` returned for a directory is absorbed, so it is
rendered as `WalkR.ok` without descent. -/
def walkNode (P : ScanParams) (path name : String) (n : FSNode) (st : WSt) : WalkOut :=
  if isCanceled P.cancelAt st.calls then
    { st := { st with calls := st.calls + 1 }, msgs := [], warns := [],
      res := WalkR.cancelled }
  else
    let st := { st with calls := st.calls + 1 }
    match n with
    | FSNode.file _ => { st := st, msgs := [], warns := [], res := WalkR.ok }
    | FSNode.linkDir _ =>
      -- IsDir: visited++, sendProgress(false); the skip-name check may
      -- fire first, but the outcome is SkipDir either way.
      let st := { st with visited := st.visited + 1 }
      let doEmit := P.throttle st.ticks
      let st := { st with ticks := st.ticks + 1 }
      let msgs1 := if doEmit then [ScanMsg.progress P.id st.visited st.found] else []
      { st := st, msgs := msgs1, warns := [], res := WalkR.ok }
    | FSNode.dir es =>
      let st := { st with visited := st.visited + 1 }
      let doEmit := P.throttle st.ticks
      let st := { st with ticks := st.ticks + 1 }
      let msgs1 := if doEmit then [ScanMsg.progress P.id st.visited st.found] else []
      if P.SkipDirs.contains name then
        { st := st, msgs := msgs1, warns := [], res := WalkR.ok }
      else if 0 < P.MaxDepth ∧ P.MaxDepth < (relativeDepth path : Int) then
        { st := st, msgs := msgs1, warns := [], res := WalkR.ok }
      else
        match lookupTarget P.Targets name with
        | some tdef =>
          match dirSize P.cancelAt (FSNode.dir es) st.calls with
          | (SizeR.cancelled, c2) =>
            { st := { st with calls := c2 }, msgs := msgs1, warns := [],
              res := WalkR.cancelled }
          | (SizeR.fail FsErr.permission, c2) =>
            { st := { st with calls := c2 }, msgs := msgs1,
              warns := ["permission denied: " ++ path], res := WalkR.ok }
          | (SizeR.fail e, c2) =>
            { st := { st with calls := c2 }, msgs := msgs1, warns := [],
              res := WalkR.fail e }
          | (SizeR.ok size, c2) =>
            let st := { st with calls := c2, found := st.found + 1 }
            let rowMsg := ScanMsg.row P.id
              { RelPath := path, Target := tdef.Name, Category := tdef.Category,
                SizeBytes := size, Marked := false, Deleted := false, DeleteErr := "" }
            let progMsg := ScanMsg.progress P.id st.visited st.found
            { st := st, msgs := msgs1 ++ [rowMsg, progMsg], warns := [],
              res := WalkR.ok }
        | none =>
          let out := walkEntries P path es st
          { out with msgs := msgs1 ++ out.msgs }
    | FSNode.badDir e =>
      let st := { st with visited := st.visited + 1 }
      let doEmit := P.throttle st.ticks
      let st := { st with ticks := st.ticks + 1 }
      let msgs1 := if doEmit then [ScanMsg.progress P.id st.visited st.found] else []
      if P.SkipDirs.contains name then
        { st := st, msgs := msgs1, warns := [], res := WalkR.ok }
      else if 0 < P.MaxDepth ∧ P.MaxDepth < (relativeDepth path : Int) then
        { st := st, msgs := msgs1, warns := [], res := WalkR.ok }
      else
        match lookupTarget P.Targets name with
        | some _ =>
          -- dirSize on this node fails with its listing error.
          match dirSize P.cancelAt (FSNode.badDir e) st.calls with
          | (SizeR.cancelled, c2) =>
            { st := { st with calls := c2 }, msgs := msgs1, warns := [],
              res := WalkR.cancelled }
          | (SizeR.fail FsErr.permission, c2) =>
            { st := { st with calls := c2 }, msgs := msgs1,
              warns := ["permission denied: " ++ path], res := WalkR.ok }
          | (SizeR.fail e2, c2) =>
            { st := { st with calls := c2 }, msgs := msgs1, warns := [],
              res := WalkR.fail e2 }
          | (SizeR.ok _, c2) =>
            -- unreachable: dirSize on a badDir never succeeds
            { st := { st with calls := c2 }, msgs := msgs1, warns := [],
              res := WalkR.ok }
        | none =>
          -- ReadDir fails: second callback with the error.
          if isCanceled P.cancelAt st.calls then
            { st := { st with calls := st.calls + 1 }, msgs := msgs1, warns := [],
              res := WalkR.cancelled }
          else
            let st := { st with calls := st.calls + 1 }
            if e = FsErr.permission then
              { st := st, msgs := msgs1,
                warns := ["permission denied: " ++ path], res := WalkR.ok }
            else
              { st := st, msgs := msgs1, warns := [], res := WalkR.fail e }

/-- The `walkDir` child loop: children visited in `ReadDir` order; a
child that ends normally (including absorbed `SkipDir`) lets the loop
continue; cancellation or a fatal error propagates at once. -/
def walkEntries (P : ScanParams) (path : String) (es : List (String × FSNode))
    (st : WSt) : WalkOut :=
  match es with
  | [] => { st := st, msgs := [], warns := [], res := WalkR.ok }
  | (nm, child) :: rest =>
    let out := walkNode P (joinRel path nm) nm child st
    match out.res with
    | WalkR.ok =>
      let out2 := walkEntries P path rest out.st
      { st := out2.st, msgs := out.msgs ++ out2.msgs,
        warns := out.warns ++ out2.warns, res := out2.res }
    | _ => out
end

/-- How the whole scan walk ended. -/
def scanResult (P : ScanParams) (tree : FSNode) : WalkR :=
  (walkNode P (".") (".") tree { visited := 0, found := 0, calls := 0, ticks := 0 }).res

/-- Embeds `runScanStream` (src/unnamed/part_001): run the walk from
".", translate `context.Canceled` to a nil error, send one final forced
progress message and exactly one terminal `scanFinishedMsg` carrying
the warnings and the fatal error, if any. -/
def runScanStream (P : ScanParams) (tree : FSNode) : List ScanMsg :=
  let out := walkNode P (".") (".") tree { visited := 0, found := 0, calls := 0, ticks := 0 }
  let err : Option FsErr :=
    match out.res with
    | WalkR.fail e => some e
    | _ => none
  out.msgs ++ [ScanMsg.progress P.id out.st.visited out.st.found,
    ScanMsg.finished P.id out.warns err out.st.visited out.st.found]

/-- The relative paths of the discovery events in a message list, in
emission order. -/
def rowPathsOf (ms : List ScanMsg) : List String :=
  ms.filterMap (fun m => match m with
    | ScanMsg.row _ r => some r.RelPath
    | _ => none)

/-- Is this the terminal completion message? -/
def isFinishedMsg : ScanMsg → Bool
  | ScanMsg.finished _ _ _ _ _ => true
  | _ => false

/-- `q` lies strictly inside directory `p`: `q` extends `p` past a
separator boundary. -/
def insidePath (p q : String) : Prop := (p.data ++ ['/']) <+: q.data

/-- The sort modes (`sortMode` in src/model.go). -/
inductive SortMode where
  | sizeDesc
  | sizeAsc
  | nameAsc
deriving DecidableEq, Repr

/-- Embeds `strings.ToLower` as used for the case-insensitive path
tie-break. -/
def strToLower (s : String) : String := s.toLower

/-- The strict "less" closure passed to `sort.SliceStable` in
`sortRows` (src/model.go): deleted rows order after non-deleted ones;
then by size according to the mode with the case-insensitive path as a
tie-break, or by case-insensitive path alone. -/
def rowLess (mode : SortMode) (l r : rowData) : Bool :=
  if l.Deleted ≠ r.Deleted then !l.Deleted
  else
    match mode with
    | SortMode.sizeAsc =>
      if l.SizeBytes = r.SizeBytes then
        decide (strToLower l.RelPath < strToLower r.RelPath)
      else decide (l.SizeBytes < r.SizeBytes)
    | SortMode.nameAsc => decide (strToLower l.RelPath < strToLower r.RelPath)
    | SortMode.sizeDesc =>
      if l.SizeBytes = r.SizeBytes then
        decide (strToLower l.RelPath < strToLower r.RelPath)
      else decide (r.SizeBytes < l.SizeBytes)

/-- Embeds `sortRows`: a stable sort by `rowLess`. A stable sort for a
strict weak order `less` is the stable merge sort under the total
preorder `fun a b => !less b a`. -/
def sortRows (mode : SortMode) (rows : List rowData) : List rowData :=
  rows.mergeSort (fun a b => !rowLess mode b a)

/-- Embeds `nextSortMode`. -/
def nextSortMode : SortMode → SortMode
  | SortMode.sizeDesc => SortMode.sizeAsc
  | SortMode.sizeAsc => SortMode.nameAsc
  | SortMode.nameAsc => SortMode.sizeDesc

/-- Proof-side sort key: `rowLess mode` is the strict order of this
lexicographic key (deleted flag, then the mode's size key, then the
lowered path). Size-descending negates the size. -/
def sortKey (mode : SortMode) (r : rowData) : Lex (Bool × Lex (Int × String)) :=
  toLex (r.Deleted, toLex
    ((match mode with
      | SortMode.sizeAsc => (r.SizeBytes : Int)
      | SortMode.sizeDesc => -(r.SizeBytes : Int)
      | SortMode.nameAsc => 0),
     strToLower r.RelPath))

/-- The confirmation actions (`confirmAction` in src/model.go). -/
inductive confirmAction where
  | confirmNone
  | confirmDeleteOne
  | confirmDeleteMarked
deriving DecidableEq, Repr

/-- The pending-confirmation state (`confirmState` in src/model.go). -/
structure confirmState where
  active : Bool
  action : confirmAction
  paths : List String
deriving DecidableEq, Repr

/-- The zero `confirmState` (`confirmState{}` in Go). -/
def confirmCleared : confirmState :=
  { active := false, action := confirmAction.confirmNone, paths := [] }

/-- The controller state (`model` in src/model.go), restricted to the
fields the engine mutates; TUI widgets, layout and wall-clock fields
are out of scope. -/
structure model where
  rows : List rowData
  loading : Bool
  err : Option FsErr
  warnings : List String
  lastEvent : String
  sortMode : SortMode
  confirm : confirmState
  confirmDeletes : Bool
  scanID : Nat
  scanVisited : Nat
  scanFound : Nat
  hasStream : Bool
  deleting : Bool
  deleteQueue : List String
  deleteTotal : Nat
  deleteDone : Nat
  deleteErrors : Nat
deriving DecidableEq, Repr

/-- The controller state right after `NewModel`: empty rows, loading,
scan generation 1. -/
def initModel : model :=
  { rows := [], loading := true, err := none, warnings := [], lastEvent := "",
    sortMode := SortMode.sizeDesc, confirm := confirmCleared, confirmDeletes := true,
    scanID := 1, scanVisited := 0, scanFound := 0, hasStream := false,
    deleting := false, deleteQueue := [], deleteTotal := 0, deleteDone := 0,
    deleteErrors := 0 }

/-- Replace the element at an index, leaving the list unchanged when
the index is out of range (`m.rows[idx] = ...` after a bounds check). -/
def modifyAt {α : Type} : List α → Nat → (α → α) → List α
  | [], _, _ => []
  | x :: xs, 0, f => f x :: xs
  | x :: xs, Nat.succ j, f => x :: modifyAt xs j f

/-- Embeds `findRow`: index of the first row with the given path. -/
def findRow (rows : List rowData) (path : String) : Option Nat :=
  rows.findIdx? (fun r => r.RelPath == path)

/-- Embeds the `Update` cases for the four scan messages
(src/model.go): every case first discards the message when its
generation ID differs from the controller's current scan ID; otherwise
it applies the documented mutation (append row, update counters, or
finish: clear loading, store error/warnings/counters, re-sort). -/
def applyScanMsg (m : model) (msg : ScanMsg) : model :=
  match msg with
  | ScanMsg.stream id =>
    if id ≠ m.scanID then m else { m with hasStream := true }
  | ScanMsg.row id r =>
    if id ≠ m.scanID then m
    else { m with
           rows := m.rows ++ [r], scanFound := m.scanFound + 1,
           lastEvent := "Found: " ++ r.RelPath }
  | ScanMsg.progress id v f =>
    if id ≠ m.scanID then m else { m with scanVisited := v, scanFound := f }
  | ScanMsg.finished id ws e v f =>
    if id ≠ m.scanID then m
    else { m with
           loading := false, err := e, warnings := ws, scanVisited := v,
           scanFound := f, rows := sortRows m.sortMode m.rows,
           lastEvent := if e = none then "Scan complete" else "Scan failed" }

/-- Embeds `startScan` (src/model.go): cancel the old scan context,
increment the scan generation, clear rows, error, warnings and
counters, and mark the controller loading. The stale stream handle is
not cleared (as in the source). -/
def startScan (m : model) : model :=
  { m with
    scanID := m.scanID + 1, loading := true, err := none, warnings := [],
    rows := [], scanVisited := 0, scanFound := 0, lastEvent := "Scanning" }

/-- Embeds `startDelete` (src/model.go): refuse an empty list or a
second concurrent queue; otherwise freeze the queue, reset the
counters, and dispatch the first path. The returned option is the path
handed to `deleteCmd`, `none` when nothing is dispatched. -/
def startDelete (m : model) (paths : List String) : model × Option String :=
  if paths.isEmpty || m.deleting then (m, none)
  else
    ({ m with
       deleting := true, deleteQueue := paths, deleteTotal := paths.length,
       deleteDone := 0, deleteErrors := 0, lastEvent := "Deleting" },
     some (paths.headD ""))

/-- The row-update block of `applyDeleteResult` (src/model.go): when a
row matches the result's path, a failure stores the error text on it
and a success marks it deleted, unmarked, with the error cleared. -/
def applyDeleteRows (rows : List rowData) (result : DeleteResult) : List rowData :=
  match findRow rows result.Path with
  | none => rows
  | some idx =>
    match result.Err with
    | some msg => modifyAt rows idx (fun r => { r with DeleteErr := msg })
    | none => modifyAt rows idx
        (fun r => { r with Deleted := true, Marked := false, DeleteErr := "" })

/-- The `deleteErrors` increment of the same block: one exactly when a
matching row exists and the result is a failure. -/
def deleteErrBump (rows : List rowData) (result : DeleteResult) : Nat :=
  match findRow rows result.Path with
  | none => 0
  | some _ =>
    match result.Err with
    | some _ => 1
    | none => 0

/-- Embeds `applyDeleteResult` (src/model.go): update the matching row
(mark it deleted and unmarked on success; record the error text on
failure), then, while a queue is active, advance the progress counter
and either dispatch the next queued path or finish the batch. -/
def applyDeleteResult (m : model) (result : DeleteResult) : model × Option String :=
  let m1 :=
    { m with
      rows := applyDeleteRows m.rows result,
      deleteErrors := m.deleteErrors + deleteErrBump m.rows result }
  if m1.deleting then
    let m2 := { m1 with deleteDone := m1.deleteDone + 1 }
    if m2.deleteTotal ≤ m2.deleteDone then
      ({ m2 with
         deleting := false, deleteQueue := [],
         lastEvent := if 0 < m2.deleteErrors then "Deleted with failures" else "Deleted" },
       none)
    else (m2, some (m2.deleteQueue.getD m2.deleteDone ""))
  else (m1, none)

/-- Drives the delete pipeline: while a dispatch is pending, produce
its result with `deleteCmd`, let the controller apply it, and continue
with whatever the controller dispatches next. Exactly one deletion is
in flight at any instant by construction: the recursion only issues
the next `deleteCmd` after `applyDeleteResult` has consumed the
previous result. -/
def runDeleteSteps (env : DeleteEnv) : Nat → model → Option String →
    model × List DeleteResult
  | 0, m, _ => (m, [])
  | _, m, none => (m, [])
  | Nat.succ fuel, m, some p =>
    let res := (deleteCmd env p).1
    let next := applyDeleteResult m res
    let rest := runDeleteSteps env fuel next.1 next.2
    (rest.1, res :: rest.2)

/-- Accept a queue with `startDelete` and drive it to completion. The
fuel `paths.length` suffices: each step consumes one queued path. -/
def processDeleteQueue (env : DeleteEnv) (m : model) (paths : List String) :
    model × List DeleteResult :=
  let s := startDelete m paths
  runDeleteSteps env paths.length s.1 s.2

/-- Embeds `toggleMark` (src/model.go): flip the cursor row's mark,
refusing deleted rows and out-of-range cursors. -/
def toggleMark (m : model) (cursor : Nat) : model :=
  if m.rows.isEmpty then m
  else
    match m.rows.get? cursor with
    | none => m
    | some r =>
      if r.Deleted then m
      else
        { m with
          rows := modifyAt m.rows cursor (fun q => { q with Marked := !q.Marked }),
          lastEvent := if !r.Marked then "Added to queue" else "Removed from queue" }

/-- Embeds `markAll` (src/model.go): mark every non-deleted row. -/
def markAll (m : model) : model :=
  if m.rows.isEmpty then m
  else
    { m with
      rows := m.rows.map (fun r => if r.Deleted then r else { r with Marked := true }),
      lastEvent := "Queued" }

/-- Embeds `clearMarks` (src/model.go): unmark every row. -/
def clearMarks (m : model) : model :=
  if m.rows.isEmpty then m
  else
    { m with
      rows := m.rows.map (fun r => { r with Marked := false }),
      lastEvent := "Cleared queue" }

/-- The paths `requestDeleteMarked` collects: marked, non-deleted rows,
in row order. -/
def markedPaths (rows : List rowData) : List String :=
  (rows.filter (fun r => r.Marked && !r.Deleted)).map (fun r => r.RelPath)

/-- Embeds `requestDeleteMarked` (src/model.go): collect the marked,
non-deleted paths; refuse an empty set; either open a confirmation or
start the delete queue at once. -/
def requestDeleteMarked (m : model) : model × Option String :=
  let paths := markedPaths m.rows
  if paths.isEmpty then ({ m with lastEvent := "Queue is empty" }, none)
  else if m.confirmDeletes then
    ({ m with
       confirm := { active := true, action := confirmAction.confirmDeleteMarked,
                    paths := paths } }, none)
  else startDelete m paths

/-- Embeds the confirmation branch of `Update` (src/model.go): while a
confirmation is pending, "y"/"Y" clears it and starts the frozen
queue; "n"/"N"/"esc" clears it and does nothing else; any other key is
ignored. The option is the dispatched path, as in `startDelete`. -/
def handleConfirmKey (m : model) (k : String) : model × Option String :=
  if m.confirm.active then
    if k = "y" || k = "Y" then
      let paths := m.confirm.paths
      startDelete { m with confirm := confirmCleared } paths
    else if k = "n" || k = "N" || k = "esc" then
      ({ m with confirm := confirmCleared, lastEvent := "Deletion cancelled" }, none)
    else (m, none)
  else (m, none)

/-- The row-mutating controller operations reachable from user intents
and events, for the state-invariant claims. `opAddRow` is a
current-generation discovery event (its row arrives unmarked and
undeleted, as built in `runScanStream`); `opApplyDelete` is a delete
result event; `opSortKey` is the sort keypress; `opRescan` is
`startScan`. -/
inductive COp where
  | opToggleMark (cursor : Nat)
  | opMarkAll
  | opClearMarks
  | opApplyDelete (res : DeleteResult)
  | opAddRow (path target cat : String) (size : Nat)
  | opSortKey
  | opRescan
deriving Repr

/-- Apply one controller operation. -/
def applyCOp (m : model) (op : COp) : model :=
  match op with
  | COp.opToggleMark cursor => toggleMark m cursor
  | COp.opMarkAll => markAll m
  | COp.opClearMarks => clearMarks m
  | COp.opApplyDelete res => (applyDeleteResult m res).1
  | COp.opAddRow path target cat size =>
    applyScanMsg m (ScanMsg.row m.scanID
      { RelPath := path, Target := target, Category := cat, SizeBytes := size,
        Marked := false, Deleted := false, DeleteErr := "" })
  | COp.opSortKey =>
    let mode := nextSortMode m.sortMode
    { m with sortMode := mode, rows := sortRows mode m.rows }
  | COp.opRescan => startScan m

/-- The claimed row invariant: no row is both deleted and marked. -/
def rowsInv (rows : List rowData) : Bool :=
  rows.all (fun r => !(r.Deleted && r.Marked))

/-- A path component as handled by `cleanPath`: nonempty and free of
the separator. -/
def elemOK (x : List Char) : Prop := x ≠ [] ∧ '/' ∉ x

/-- Render a component list as the separator-joined relative path the
walk would carry at that node ("." at the root), matching the strings
`path.Join` accumulates. -/
def strOfComps : List String → String
  | [] => ""
  | [n] => n
  | n :: m :: rest => n ++ "/" ++ strOfComps (m :: rest)

/-- The walk path of a node reached through the given components. -/
def renderPath (c : List String) : String :=
  if c = [] then "." else strOfComps c

/-- All components are legal entry names. -/
def compsValid (c : List String) : Prop := ∀ x ∈ c, validName x = true

/-- Two reported paths are separated: distinct and neither strictly
inside the other. -/
def sepPaths (p q : String) : Prop :=
  p ≠ q ∧ ¬insidePath p q ∧ ¬insidePath q p

theorem isCanceled_none (calls : Nat) : isCanceled none calls = false := rfl

mutual
theorem dirSize_pure (n : FSNode) (calls : Nat) (h : pureTree n = true) :
    (dirSize none n calls).1 = SizeR.ok (specSize n) := by
  cases n with
  | file sz => simp [dirSize, isCanceled_none, specSize]
  | linkDir es => simp [dirSize, isCanceled_none, specSize]
  | badDir e => simp [pureTree] at h
  | dir es =>
    have h2 : pureEntries es = true := by
      simpa [pureTree] using h
    simp [dirSize, isCanceled_none, specSize, dirSizeEntries_pure es (calls + 1) h2]

theorem dirSizeEntries_pure (es : List (String × FSNode)) (calls : Nat)
    (h : pureEntries es = true) :
    (dirSizeEntries none es calls).1 = SizeR.ok (specSizeEntries es) := by
  match es with
  | [] => simp [dirSizeEntries, specSizeEntries]
  | (nm, child) :: rest =>
    have h1 : pureTree child = true := by
      simp [pureEntries] at h; exact h.1
    have h2 : pureEntries rest = true := by
      simp [pureEntries] at h; exact h.2
    have e1 := dirSize_pure child calls h1
    simp only [dirSizeEntries, specSizeEntries]
    rcases hh : dirSize none child calls with ⟨r1, c1⟩
    rw [hh] at e1
    simp only at e1
    subst e1
    have e2 := dirSizeEntries_pure rest c1 h2
    rcases hh2 : dirSizeEntries none rest c1 with ⟨r2, c2⟩
    rw [hh2] at e2
    simp only at e2
    subst e2
    simp [hh2]
end

/-- C2: for every cancellation-free walk over a tree without listing
failures, the size accumulator `dirSize`, started at any point of the
callback clock, returns exactly the total byte size of all regular
files transitively under the node, with symbolic-link directory
subtrees excluded (their contribution is `specSize (linkDir es) = 0`). -/
theorem dirSize_reports_total_size (n : FSNode) (calls : Nat)
    (h : pureTree n = true) :
    (dirSize none n calls).1 = SizeR.ok (specSize n) :=
  dirSize_pure n calls h

/-- Witness for C2: a concrete tree with a file, a symlink-directory
subtree (excluded) and a nested directory. -/
theorem dirSize_reports_total_size_witness :
    (dirSize none (FSNode.dir [("x", FSNode.file 100),
        ("l", FSNode.linkDir [("y", FSNode.file 7)]),
        ("d", FSNode.dir [("z", FSNode.file 24)])]) 0).1 = SizeR.ok 124 := by
  have h := dirSize_reports_total_size (FSNode.dir [("x", FSNode.file 100),
    ("l", FSNode.linkDir [("y", FSNode.file 7)]),
    ("d", FSNode.dir [("z", FSNode.file 24)])]) 0 (by decide)
  simpa [specSize, specSizeEntries] using h

theorem splitSlash_noSlash (cs : List Char) : ∀ x ∈ splitSlash cs, '/' ∉ x := by
  induction cs with
  | nil =>
    intro x hx
    simp [splitSlash] at hx
    subst hx; simp
  | cons c rest ih =>
    intro x hx
    by_cases hc : c = '/'
    · subst hc
      simp [splitSlash] at hx
      rcases hx with h | h
      · subst h; simp
      · exact ih x h
    · rw [splitSlash, if_neg hc] at hx
      rcases hsp : splitSlash rest with _ | ⟨t, ts⟩
      · rw [hsp] at hx
        simp at hx
        subst hx
        intro hbad
        rcases List.mem_singleton.mp hbad with hbad2
        exact hc hbad2.symm
      · rw [hsp] at hx
        simp at hx
        rcases hx with h | h
        · subst h
          have ht : '/' ∉ t := ih t (by rw [hsp]; exact List.mem_cons_self t ts)
          intro hbad
          rcases List.mem_cons.mp hbad with hbad2 | hbad2
          · exact hc hbad2.symm
          · exact ht hbad2
        · exact ih x (by rw [hsp]; exact List.mem_cons_of_mem t h)

theorem cleanStep_elems (rooted : Bool) (stack : List (List Char)) (c : List Char)
    (hs : ∀ x ∈ stack, elemOK x) (hcx : elemOK c) :
    ∀ x ∈ cleanStep rooted stack c, elemOK x := by
  intro x hx
  have hdd : elemOK ['.', '.'] := by
    constructor
    · simp
    · decide
  unfold cleanStep at hx
  by_cases h1 : c = ['.', '.']
  · rw [if_pos h1] at hx
    by_cases h2 : stack = []
    · rw [if_pos h2] at hx
      by_cases h3 : rooted = true
    
      · simp [h3] at hx
      · simp [Bool.not_eq_true] at h3
        simp [h3] at hx
        subst hx
        exact hdd
    · rw [if_neg h2] at hx
      by_cases h4 : stack.getLast? = some ['.', '.']
      · rw [if_pos h4] at hx
        rcases List.mem_append.mp hx with h | h
        · exact hs x h
        · rcases List.mem_singleton.mp h with rfl
          exact hdd
      · rw [if_neg h4] at hx
        exact hs x (List.dropLast_subset stack hx)
  · rw [if_neg h1] at hx
    rcases List.mem_append.mp hx with h | h
    · exact hs x h
    · rcases List.mem_singleton.mp h with rfl
      exact hcx

theorem foldl_cleanStep_elems (rooted : Bool) (comps : List (List Char)) :
    ∀ stack, (∀ x ∈ stack, elemOK x) → (∀ c ∈ comps, elemOK c) →
    ∀ x ∈ comps.foldl (cleanStep rooted) stack, elemOK x := by
  induction comps with
  | nil =>
    intro stack hs _ x hx
    exact hs x hx
  | cons c rest ih =>
    intro stack hs hc x hx
    rw [List.foldl_cons] at hx
    exact ih (cleanStep rooted stack c)
      (cleanStep_elems rooted stack c hs (hc c (List.mem_cons_self c rest)))
      (fun d hd => hc d (List.mem_cons_of_mem c hd)) x hx

theorem take_one_ne_sep (x t : List Char) (hne : x ≠ []) (hn : '/' ∉ x) :
    (x ++ t).take 1 ≠ ['/'] := by
  match x with
  | a :: x2 =>
    have ha : a ≠ '/' := fun h => hn (h ▸ List.mem_cons_self a x2)
    simp [List.take]
    intro h
    exact absurd h ha

theorem joinSlash_take_one (stack : List (List Char))
    (hs : ∀ x ∈ stack, elemOK x) (hne : stack ≠ []) :
    (joinSlash stack).take 1 ≠ ['/'] := by
  match stack with
  | [x] =>
    have hx := hs x (List.mem_singleton_self x)
    have : joinSlash [x] = x ++ [] := by simp [joinSlash]
    rw [this]
    exact take_one_ne_sep x [] hx.1 hx.2
  | x :: y :: rest =>
    have hx := hs x (List.mem_cons_self x (y :: rest))
    have : joinSlash (x :: y :: rest) = x ++ '/' :: joinSlash (y :: rest) := rfl
    rw [this]
    exact take_one_ne_sep x ('/' :: joinSlash (y :: rest)) hx.1 hx.2

theorem cleanPath_stack_elems (p : String) :
    ∀ x ∈ ((splitSlash p.data).filter
        (fun c => !(c.isEmpty) && !(decide (c = ['.'])))).foldl
        (cleanStep (isAbs p)) [], elemOK x := by
  apply foldl_cleanStep_elems
  · intro x hx
    simp at hx
  · intro c hc
    rcases List.mem_filter.mp hc with ⟨hmem, hcond⟩
    simp at hcond
    exact ⟨by simpa using hcond.1, splitSlash_noSlash p.data c hmem⟩

theorem isAbs_cleanPath (p : String) (hp : p ≠ "") :
    isAbs (cleanPath p) = isAbs p := by
  unfold cleanPath
  rw [if_neg hp]
  by_cases hr : isAbs p
  · simp only [hr, if_pos]
    simp [isAbs, List.take]
  · simp only [Bool.not_eq_true] at hr
    rw [hr]
    simp only [if_neg (by simp : ¬(false : Bool) = true)]
    set stack := ((splitSlash p.data).filter
      (fun c => !(c.isEmpty) && !(decide (c = ['.'])))).foldl (cleanStep false) [] with hst
    by_cases hs0 : stack = []
    · rw [if_pos hs0]
      simp [isAbs]
    · rw [if_neg hs0]
      have helems : ∀ x ∈ stack, elemOK x := by
        rw [hst]
        have := cleanPath_stack_elems p
        rw [hr] at this
        exact this
      have := joinSlash_take_one stack helems hs0
      simp [isAbs]
      exact this

theorem validateDeletePath_error_iff (p : String) :
    validateFails p = true ↔
      (p = "" ∨ cleanPath p = "." ∨ cleanPath p = "/" ∨ isAbs p = true) := by
  by_cases hp : p = ""
  · subst hp
    simp [validateFails, validateDeletePath]
  · have habs := isAbs_cleanPath p hp
    rw [validateFails]
    unfold validateDeletePath
    rw [if_neg hp]
    by_cases h2 : cleanPath p = "." ∨ cleanPath p = "/"
    · have : (decide (cleanPath p = ".") || decide (cleanPath p = "/")) = true := by
        rcases h2 with h | h <;> simp [h]
      simp only [this]
      simp only [hp, false_or]
      constructor
      · intro _
        rcases h2 with h | h
        · exact Or.inl h
        · exact Or.inr (Or.inl h)
      · intro _
        rfl
    · have hni : (decide (cleanPath p = ".") || decide (cleanPath p = "/")) = false := by
        push_neg at h2
        simp [h2.1, h2.2]
      simp only [hni]
      by_cases h3 : isAbs (cleanPath p) = true
      · simp [h3, hp, habs ▸ h3]
      · simp only [Bool.not_eq_true] at h3
        simp [h3, hp]
        push_neg at h2
        refine ⟨h2.1, h2.2, ?_⟩
        rw [← habs]
        simp [h3]

theorem validateDeletePath_ok_clean (p q : String)
    (hq : validateDeletePath p = Except.ok q) : q = cleanPath p := by
  unfold validateDeletePath at hq
  by_cases hp : p = ""
  · rw [if_pos hp] at hq
    exact absurd hq (by simp)
  · rw [if_neg hp] at hq
    by_cases h2 : (decide (cleanPath p = ".") || decide (cleanPath p = "/")) = true
    · rw [if_pos h2] at hq
      exact absurd hq (by simp)
    · rw [if_neg (by simpa using h2)] at hq
      by_cases h3 : isAbs (cleanPath p) = true
      · rw [if_pos h3] at hq
        exact absurd hq (by simp)
      · rw [if_neg (by simpa using h3)] at hq
        simpa using hq.symm

/-- C1: `validateDeletePath` either returns the normalized relative
path or fails, and it fails exactly when the path is empty, or
normalization yields the root "." or the bare path separator "/", or
the path is absolute; and whenever validation fails at delete time,
`deleteCmd` produces a failure result for that path without invoking
`RemoveAll` (no filesystem call). -/
theorem validateDeletePath_spec (p : String) (env : DeleteEnv) :
    (validateFails p = true ↔
      (p = "" ∨ cleanPath p = "." ∨ cleanPath p = "/" ∨ isAbs p = true))
    ∧ (validateFails p = true →
        (deleteCmd env p).2 = false ∧ ((deleteCmd env p).1.Err).isSome = true)
    ∧ (∀ q, validateDeletePath p = Except.ok q → q = cleanPath p) := by
  refine ⟨validateDeletePath_error_iff p, ?_, fun q hq => validateDeletePath_ok_clean p q hq⟩
  intro hfail
  rw [validateFails] at hfail
  unfold deleteCmd
  rcases hv : validateDeletePath p with e | q
  · simp
  · rw [hv] at hfail
    simp at hfail

/-- Witness for C1 at the spec's concrete input "/etc": validation
fails and `RemoveAll` is never invoked. -/
theorem validateDeletePath_spec_witness :
    (deleteCmd { rootPresent := true, removeAll := fun _ => none } "/etc").2 = false := by
  have h := (validateDeletePath_spec "/etc"
    { rootPresent := true, removeAll := fun _ => none }).2.1 (by decide)
  exact h.1

/-- C10: while a confirmation is pending, a negative answer ("n", "N"
or escape) clears the confirmation state unconditionally and changes
nothing else: the resulting state differs from the input only in the
cleared confirmation and the status text, so every marked row keeps its
flags, no delete queue is started, and nothing is dispatched to the
filesystem. -/
theorem confirm_negative_noop (m : model) (k : String)
    (hact : m.confirm.active = true) (hk : k = "n" ∨ k = "N" ∨ k = "esc") :
    handleConfirmKey m k =
      ({ m with confirm := confirmCleared, lastEvent := "Deletion cancelled" }, none) := by
  unfold handleConfirmKey
  rw [if_pos hact]
  have h1 : ¬((decide (k = "y") || decide (k = "Y")) = true) := by
    rcases hk with h | h | h <;> subst h <;> decide
  have h2 : (decide (k = "n") || decide (k = "N") || decide (k = "esc")) = true := by
    rcases hk with h | h | h <;> subst h <;> decide
  simp only [h2, if_true]
  rw [if_neg h1]

/-- Witness for C10: two marked rows, confirmation pending, answer
"n": the rows are untouched (both still marked, not deleted) and no
deletion is dispatched. -/
theorem confirm_negative_noop_witness :
    (handleConfirmKey
      { initModel with
        rows := [rowData.mk "a" "t" "c" 1 true false "",
                 rowData.mk "b" "t" "c" 2 true false ""],
        confirm := confirmState.mk true confirmAction.confirmDeleteMarked
          ["a", "b"] } "n").1.rows =
      [rowData.mk "a" "t" "c" 1 true false "",
       rowData.mk "b" "t" "c" 2 true false ""] := by
  rw [confirm_negative_noop _ _ (by decide) (Or.inl rfl)]

/-- C7: a scan event whose generation ID differs from the controller's
current scan ID leaves the controller state entirely unchanged; hence
after a rescan (which increments the generation and clears the rows)
any sequence of events from superseded generations is discarded whole,
and the new generation's row set stays empty of stale rows. -/
theorem stale_generation_discarded :
    (∀ (m : model) (msg : ScanMsg), scanMsgId msg ≠ m.scanID → applyScanMsg m msg = m)
    ∧ (∀ (m : model) (msgs : List ScanMsg),
        (∀ x ∈ msgs, scanMsgId x ≠ (startScan m).scanID) →
        msgs.foldl applyScanMsg (startScan m) = startScan m
        ∧ (msgs.foldl applyScanMsg (startScan m)).rows = []) := by
  have part1 : ∀ (m : model) (msg : ScanMsg), scanMsgId msg ≠ m.scanID →
      applyScanMsg m msg = m := by
    intro m msg h
    cases msg with
    | stream id => simp only [applyScanMsg]; rw [if_pos (by simpa [scanMsgId] using h)]
    | row id r => simp only [applyScanMsg]; rw [if_pos (by simpa [scanMsgId] using h)]
    | progress id v f => simp only [applyScanMsg]; rw [if_pos (by simpa [scanMsgId] using h)]
    | finished id ws e v f =>
      simp only [applyScanMsg]; rw [if_pos (by simpa [scanMsgId] using h)]
  refine ⟨part1, ?_⟩
  intro m msgs h
  have hfold : ∀ (ms : List ScanMsg) (s : model),
      (∀ x ∈ ms, scanMsgId x ≠ s.scanID) → ms.foldl applyScanMsg s = s := by
    intro ms
    induction ms with
    | nil => intro s _; rfl
    | cons x xs ih =>
      intro s hs
      rw [List.foldl_cons, part1 s x (hs x (List.mem_cons_self x xs))]
      exact ih s (fun y hy => hs y (List.mem_cons_of_mem x hy))
  have he := hfold msgs (startScan m) h
  refine ⟨he, ?_⟩
  rw [he]
  rfl

/-- Witness for C7: a stale discovery event (generation 1) arriving
after a rescan bumped the controller to generation 2 is discarded: the
state is unchanged and, in particular, no row appears. -/
theorem stale_generation_discarded_witness :
    applyScanMsg (startScan initModel)
      (ScanMsg.row 1 (rowData.mk "stale" "t" "c" 9 false false "")) =
      startScan initModel := by
  exact stale_generation_discarded.1 (startScan initModel)
    (ScanMsg.row 1 (rowData.mk "stale" "t" "c" 9 false false ""))
    (by decide)

theorem modifyAt_mem {α : Type} (l : List α) (i : Nat) (f : α → α) (x : α)
    (hx : x ∈ modifyAt l i f) : x ∈ l ∨ ∃ y, l.get? i = some y ∧ x = f y := by
  induction l generalizing i with
  | nil => simp [modifyAt] at hx
  | cons a as ih =>
    cases i with
    | zero =>
      simp only [modifyAt, List.mem_cons] at hx
      rcases hx with h | h
      · exact Or.inr ⟨a, by simp, h⟩
      · exact Or.inl (List.mem_cons_of_mem a h)
    | succ j =>
      simp only [modifyAt, List.mem_cons] at hx
      rcases hx with h | h
      · exact Or.inl (by simp [h])
      · rcases ih j h with h2 | ⟨y, hy, hxy⟩
        · exact Or.inl (List.mem_cons_of_mem a h2)
        · exact Or.inr ⟨y, by simpa using hy, hxy⟩

theorem rowsInv_applyDeleteRows (rows : List rowData) (res : DeleteResult)
    (h : rowsInv rows = true) : rowsInv (applyDeleteRows rows res) = true := by
  have hP := List.all_eq_true.mp h
  apply List.all_eq_true.mpr
  intro r hr
  unfold applyDeleteRows at hr
  rcases hfind : findRow rows res.Path with _ | idx
  · rw [hfind] at hr
    exact hP r hr
  · rw [hfind] at hr
    rcases herr : res.Err with _ | msg
    · rw [herr] at hr
      rcases modifyAt_mem _ _ _ _ hr with hmem | ⟨y, hy, rfl⟩
      · exact hP r hmem
      · simp
    · rw [herr] at hr
      rcases modifyAt_mem _ _ _ _ hr with hmem | ⟨y, hy, rfl⟩
      · exact hP r hmem
      · have hymem : y ∈ rows := List.get?_mem hy
        have := hP y hymem
        simpa using this

theorem applyDeleteResult_fst_rows (m : model) (res : DeleteResult) :
    (applyDeleteResult m res).1.rows = applyDeleteRows m.rows res := by
  simp only [applyDeleteResult]
  split
  · split
    · rfl
    · rfl
  · rfl

theorem inv_applyCOp (m : model) (op : COp) (h : rowsInv m.rows = true) :
    rowsInv (applyCOp m op).rows = true := by
  have hP := List.all_eq_true.mp h
  cases op with
  | opToggleMark cursor =>
    simp only [applyCOp, toggleMark]
    split
    · exact h
    · rcases hget : m.rows.get? cursor with _ | r0 <;> dsimp only
      · exact h
      · by_cases hdel : r0.Deleted = true
        · rw [if_pos hdel]
          exact h
        · rw [if_neg hdel]
          apply List.all_eq_true.mpr
          intro r hr
          rcases modifyAt_mem m.rows cursor
              (fun q => { q with Marked := !q.Marked }) r hr with hmem | ⟨y, hy, rfl⟩
          · exact hP r hmem
          · have hey : y = r0 := by
              rw [hget] at hy
              exact (Option.some.inj hy).symm
            subst hey
            simp only [Bool.not_eq_true] at hdel
            simp [hdel]
  | opMarkAll =>
    simp only [applyCOp, markAll]
    split
    · exact h
    · apply List.all_eq_true.mpr
      intro r hr
      rcases List.mem_map.mp hr with ⟨a, ha, rfl⟩
      by_cases hd : a.Deleted = true
      · rw [if_pos hd]
        exact hP a ha
      · rw [if_neg hd]
        simp only [Bool.not_eq_true] at hd
        simp [hd]
  | opClearMarks =>
    simp only [applyCOp, clearMarks]
    split
    · exact h
    · apply List.all_eq_true.mpr
      intro r hr
      rcases List.mem_map.mp hr with ⟨a, ha, rfl⟩
      simp
  | opApplyDelete res =>
    simp only [applyCOp]
    rw [applyDeleteResult_fst_rows]
    exact rowsInv_applyDeleteRows m.rows res h
  | opAddRow path target cat size =>
    simp only [applyCOp, applyScanMsg, scanMsgId]
    rw [if_neg (by simp)]
    apply List.all_eq_true.mpr
    intro r hr
    rcases List.mem_append.mp hr with hmem | hmem
    · exact hP r hmem
    · rcases List.mem_singleton.mp hmem with rfl
      simp
  | opSortKey =>
    simp only [applyCOp]
    apply List.all_eq_true.mpr
    intro r hr
    have hperm := List.mergeSort_perm m.rows
      (fun a b => !rowLess (nextSortMode m.sortMode) b a)
    have hmem : r ∈ m.rows := hperm.mem_iff.mp (by simpa [sortRows] using hr)
    exact hP r hmem
  | opRescan =>
    simp [applyCOp, startScan, rowsInv]

/-- C9: in every controller state reachable by the row-mutating
operations, no row is simultaneously deleted and marked: a successful
delete result sets `Deleted` and clears `Marked`, the mark operations
only ever mark non-deleted rows, and the bulk-delete request never
selects a deleted row, so a deleted row is not eligible for marking or
re-deletion. -/
theorem deleted_never_marked :
    (∀ (m : model) (op : COp), rowsInv m.rows = true →
      rowsInv (applyCOp m op).rows = true)
    ∧ (∀ ops : List COp, rowsInv ((ops.foldl applyCOp initModel).rows) = true)
    ∧ (∀ (rows : List rowData) (p : String), p ∈ markedPaths rows →
        ∃ r ∈ rows, r.RelPath = p ∧ r.Deleted = false) := by
  refine ⟨fun m op h => inv_applyCOp m op h, ?_, ?_⟩
  · intro ops
    have hgen : ∀ (l : List COp) (s : model), rowsInv s.rows = true →
        rowsInv ((l.foldl applyCOp s).rows) = true := by
      intro l
      induction l with
      | nil => intro s hs; exact hs
      | cons x xs ih =>
        intro s hs
        rw [List.foldl_cons]
        exact ih _ (inv_applyCOp s x hs)
    exact hgen ops initModel (by decide)
  · intro rows p hp
    unfold markedPaths at hp
    rcases List.mem_map.mp hp with ⟨r, hr, rfl⟩
    rcases List.mem_filter.mp hr with ⟨hmem, hcond⟩
    simp only [Bool.and_eq_true, Bool.not_eq_true'] at hcond
    exact ⟨r, hmem, rfl, hcond.2⟩

/-- Witness for C9: marking all rows in a state holding one deleted
row preserves the invariant (the deleted row stays unmarked). -/
theorem deleted_never_marked_witness :
    rowsInv (applyCOp
      { initModel with rows := [rowData.mk "a" "t" "c" 1 false true ""] }
      COp.opMarkAll).rows = true := by
  exact deleted_never_marked.1
    { initModel with rows := [rowData.mk "a" "t" "c" 1 false true ""] }
    COp.opMarkAll (by decide)

theorem deleteCmd_path_of_clean (env : DeleteEnv) (p : String)
    (h : cleanPath p = p) : (deleteCmd env p).1.Path = p := by
  unfold deleteCmd
  rcases hv : validateDeletePath p with e | q
  · rfl
  · have hq := validateDeletePath_ok_clean p q hv
    subst hq
    dsimp only
    split <;> simpa using h

theorem applyDeleteResult_queue (m : model) (res : DeleteResult)
    (hdel : m.deleting = true) :
    (m.deleteDone + 1 < m.deleteTotal →
      (applyDeleteResult m res).2 = some (m.deleteQueue.getD (m.deleteDone + 1) "")
      ∧ (applyDeleteResult m res).1.deleting = true
      ∧ (applyDeleteResult m res).1.deleteQueue = m.deleteQueue
      ∧ (applyDeleteResult m res).1.deleteTotal = m.deleteTotal
      ∧ (applyDeleteResult m res).1.deleteDone = m.deleteDone + 1)
    ∧ (m.deleteTotal ≤ m.deleteDone + 1 →
      (applyDeleteResult m res).2 = none
      ∧ (applyDeleteResult m res).1.deleting = false) := by
  constructor
  · intro hcmp
    have hns : ¬(m.deleteTotal ≤ m.deleteDone + 1) := by omega
    simp only [applyDeleteResult]
    simp [hdel, hns]
  · intro hcmp
    simp only [applyDeleteResult]
    simp [hdel, hcmp]

theorem runDeleteSteps_spec (env : DeleteEnv) (paths : List String)
    (hclean : ∀ p ∈ paths, cleanPath p = p) :
    ∀ (f k : Nat) (m : model), f = paths.length - k → m.deleting = true →
      m.deleteQueue = paths → m.deleteTotal = paths.length → m.deleteDone = k →
      k < paths.length →
      (runDeleteSteps env f m (some (paths.getD k ""))).2.map
          (fun r => r.Path) = paths.drop k
      ∧ (runDeleteSteps env f m (some (paths.getD k ""))).1.deleting = false := by
  intro f
  induction f with
  | zero =>
    intro k m hf hdel hq ht hdone hk
    omega
  | succ f ih =>
    intro k m hf hdel hq ht hdone hk
    have hkmem : paths.getD k "" ∈ paths := by
      rw [List.getD_eq_getElem paths "" hk]
      exact List.getElem_mem hk
    have hpath : (deleteCmd env (paths.getD k "")).1.Path = paths.getD k "" :=
      deleteCmd_path_of_clean env _ (hclean _ hkmem)
    have hdropk : paths.drop k = paths.getD k "" :: paths.drop (k + 1) := by
      rw [List.getD_eq_getElem paths "" hk]
      exact List.drop_eq_getElem_cons hk
    simp only [runDeleteSteps]
    by_cases hlast : k + 1 < paths.length
    · have hq1 := (applyDeleteResult_queue m (deleteCmd env (paths.getD k "")).1 hdel).1
        (by rw [hdone, ht]; exact hlast)
      rcases hq1 with ⟨hnext, hdel2, hq2, ht2, hdone2⟩
      rw [hdone] at hnext
      rw [hq] at hnext
      have ihr := ih (k + 1)
        (applyDeleteResult m (deleteCmd env (paths.getD k "")).1).1
        (by omega) hdel2 (by rw [hq2, hq]) (by rw [ht2, ht])
        (by rw [hdone2, hdone]) hlast
      rw [hnext]
      constructor
      · simp only [List.map_cons]
        rw [hpath, ihr.1, hdropk]
      · exact ihr.2
    · have hq2 := (applyDeleteResult_queue m (deleteCmd env (paths.getD k "")).1 hdel).2
        (by rw [hdone, ht]; omega)
      rcases hq2 with ⟨hnone, hdel2⟩
      rw [hnone]
      have hstop : ∀ (mm : model), runDeleteSteps env f mm none = (mm, []) := by
        intro mm
        cases f <;> rfl
      rw [hstop]
      constructor
      · simp only [List.map_cons, List.map_nil]
        rw [hpath, hdropk]
        have hkl : k + 1 = paths.length := by omega
        rw [hkl, List.drop_length]
      · exact hdel2

/-- C6: accepting a non-empty queue of N already-normalized paths
(the shape every queue accepted by the controller has, since queues
are built from scan row paths) yields exactly N delete-result events,
the i-th event's path being the i-th queued path (each queued path
once, in submitted order), and the batch terminates with the deleting
flag cleared; the `removeAll` oracle is arbitrary, so a failed item
never stops the remaining queue. At most one deletion is in flight by
construction of `runDeleteSteps`: the next `deleteCmd` is issued only
after `applyDeleteResult` has consumed the previous result. -/
theorem delete_queue_exact (env : DeleteEnv) (m : model) (paths : List String)
    (hnd : m.deleting = false) (hne : paths ≠ [])
    (hclean : ∀ p ∈ paths, cleanPath p = p) :
    (processDeleteQueue env m paths).2.map (fun r => r.Path) = paths
    ∧ (processDeleteQueue env m paths).2.length = paths.length
    ∧ (processDeleteQueue env m paths).1.deleting = false := by
  unfold processDeleteQueue startDelete
  rw [if_neg (by simp [hnd, List.isEmpty_iff, hne])]
  have h0 : paths.headD "" = paths.getD 0 "" := by cases paths <;> rfl
  have hlen : 0 < paths.length := List.length_pos.mpr hne
  have hmain := runDeleteSteps_spec env paths hclean paths.length 0
    { m with
      deleting := true, deleteQueue := paths, deleteTotal := paths.length,
      deleteDone := 0, deleteErrors := 0, lastEvent := "Deleting" }
    (by omega) rfl rfl rfl rfl hlen
  rw [List.drop_zero] at hmain
  simp only [h0]
  refine ⟨hmain.1, ?_, hmain.2⟩
  have hlg := congrArg List.length hmain.1
  simpa using hlg

/-- Witness for C6: a two-path queue whose first deletion fails: still
two results, in submitted order. -/
theorem delete_queue_exact_witness :
    (processDeleteQueue
      { rootPresent := true,
        removeAll := fun p => if p = "a" then some "boom" else none }
      initModel ["a", "b"]).2.map (fun r => r.Path) = ["a", "b"] := by
  exact (delete_queue_exact
    { rootPresent := true,
      removeAll := fun p => if p = "a" then some "boom" else none }
    initModel ["a", "b"] rfl (by decide) (by decide)).1

theorem rowLess_iff_key (mode : SortMode) (l r : rowData) :
    rowLess mode l r = true ↔ sortKey mode l < sortKey mode r := by
  unfold rowLess sortKey
  by_cases hD : l.Deleted = r.Deleted
  · rw [if_neg (by simp [hD])]
    rw [Prod.Lex.lt_iff]
    simp only [hD, lt_self_iff_false, false_or, true_and]
    rw [Prod.Lex.lt_iff]
    cases mode with
    | sizeAsc =>
      by_cases hs : l.SizeBytes = r.SizeBytes
      · simp [hs]
      · have hcast : ¬((l.SizeBytes : Int) = (r.SizeBytes : Int)) := by
          exact_mod_cast hs
        simp [hs, hcast]
    | nameAsc =>
      simp
    | sizeDesc =>
      by_cases hs : l.SizeBytes = r.SizeBytes
      · simp [hs]
      · have hcast : ¬(-(l.SizeBytes : Int) = -(r.SizeBytes : Int)) := by
          simp
          exact_mod_cast hs
        simp only [hs, if_false]
        constructor
        · intro hlt
          left
          have : (r.SizeBytes : Int) < (l.SizeBytes : Int) := by
            exact_mod_cast of_decide_eq_true hlt
          omega
        · intro hor
          rcases hor with hlt | ⟨heq, _⟩
          · apply decide_eq_true
            have : (r.SizeBytes : Int) < (l.SizeBytes : Int) := by omega
            exact_mod_cast this
          · exact absurd heq hcast
  · rw [if_pos hD]
    rw [Prod.Lex.lt_iff]
    cases hl : l.Deleted <;> cases hr : r.Deleted <;>
      simp_all [Bool.lt_iff]

theorem sortLe_iff_key (mode : SortMode) (a b : rowData) :
    (!rowLess mode b a) = true ↔ sortKey mode a ≤ sortKey mode b := by
  rw [Bool.not_eq_true']
  constructor
  · intro h
    by_contra hnb
    rw [not_le] at hnb
    rw [← rowLess_iff_key] at hnb
    rw [h] at hnb
    exact absurd hnb (by simp)
  · intro h
    by_contra hne
    have : rowLess mode b a = true := by
      cases hlt : rowLess mode b a
      · exact absurd hlt hne
      · rfl
    rw [rowLess_iff_key] at this
    exact absurd h (not_le.mpr this)

theorem sortLe_trans (mode : SortMode) : ∀ (a b c : rowData),
    (fun a b => !rowLess mode b a) a b = true →
    (fun a b => !rowLess mode b a) b c = true →
    (fun a b => !rowLess mode b a) a c = true := by
  intro a b c hab hbc
  simp only at hab hbc ⊢
  rw [sortLe_iff_key] at hab hbc ⊢
  exact le_trans hab hbc

theorem sortLe_total (mode : SortMode) : ∀ (a b : rowData),
    ((fun a b => !rowLess mode b a) a b || (fun a b => !rowLess mode b a) b a) = true := by
  intro a b
  simp only [Bool.or_eq_true]
  rcases le_total (sortKey mode a) (sortKey mode b) with h | h
  · left
    rw [sortLe_iff_key]
    exact h
  · right
    rw [sortLe_iff_key]
    exact h

theorem sortRows_sorted (mode : SortMode) (rows : List rowData) :
    List.Pairwise (fun a b => (!rowLess mode b a) = true) (sortRows mode rows) := by
  have h := @List.sorted_mergeSort rowData (fun a b => !rowLess mode b a)
    (sortLe_trans mode) (sortLe_total mode) rows
  simpa [sortRows] using h

/-- C8: sorting is stable and idempotent (a list already in the
mode's order is reproduced unchanged, and re-applying the same mode
reproduces the same order), deleted rows always sort after non-deleted
rows in every mode, rows of equal deleted-status and equal size are
ordered by case-insensitive relative path, and the mode cycles
size-descending to size-ascending to name-ascending and back. -/
theorem sortRows_spec (mode : SortMode) (rows : List rowData) :
    sortRows mode (sortRows mode rows) = sortRows mode rows
    ∧ (List.Pairwise (fun a b => (!rowLess mode b a) = true) rows →
        sortRows mode rows = rows)
    ∧ List.Pairwise (fun a b => a.Deleted = true → b.Deleted = true)
        (sortRows mode rows)
    ∧ List.Pairwise (fun a b => a.Deleted = b.Deleted →
        a.SizeBytes = b.SizeBytes →
        strToLower a.RelPath ≤ strToLower b.RelPath) (sortRows mode rows)
    ∧ (nextSortMode SortMode.sizeDesc = SortMode.sizeAsc
       ∧ nextSortMode SortMode.sizeAsc = SortMode.nameAsc
       ∧ nextSortMode SortMode.nameAsc = SortMode.sizeDesc) := by
  refine ⟨?_, ?_, ?_, ?_, by decide, by decide, by decide⟩
  · exact List.mergeSort_of_sorted (sortRows_sorted mode rows)
  · intro hs
    exact List.mergeSort_of_sorted hs
  · apply (sortRows_sorted mode rows).imp
    intro a b hle had
    rw [sortLe_iff_key] at hle
    unfold sortKey at hle
    rw [Prod.Lex.le_iff] at hle
    dsimp only at hle
    rcases hle with h | ⟨h, _⟩
    · rw [had] at h
      exact absurd h (by simp [Bool.lt_iff])
    · rw [← h]
      exact had
  · apply (sortRows_sorted mode rows).imp
    intro a b hle hdeq hseq
    rw [sortLe_iff_key] at hle
    unfold sortKey at hle
    rw [Prod.Lex.le_iff] at hle
    dsimp only at hle
    rcases hle with h | ⟨_, h2⟩
    · exact absurd h (by rw [hdeq]; exact lt_irrefl _)
    · rw [Prod.Lex.le_iff] at h2
      dsimp only at h2
      rcases h2 with h3 | ⟨_, h4⟩
      · exfalso
        cases mode <;> simp [hseq] at h3
      · exact h4

/-- Witness for C8: a list already in size-descending order is
reproduced unchanged. -/
theorem sortRows_spec_witness :
    sortRows SortMode.sizeDesc
      [rowData.mk "b" "t" "c" 5 false false "",
       rowData.mk "a" "t" "c" 3 false false ""] =
      [rowData.mk "b" "t" "c" 5 false false "",
       rowData.mk "a" "t" "c" 3 false false ""] := by
  exact (sortRows_spec SortMode.sizeDesc
    [rowData.mk "b" "t" "c" 5 false false "",
     rowData.mk "a" "t" "c" 3 false false ""]).2.1 (by decide)

theorem mem_progOpt (b : Bool) (id v f : Nat) (x : ScanMsg)
    (hx : x ∈ if b = true then [ScanMsg.progress id v f] else []) :
    isFinishedMsg x = false := by
  split at hx
  · rcases List.mem_singleton.mp hx with rfl
    rfl
  · simp at hx

mutual
theorem walkNode_basic (P : ScanParams) (path name : String) (n : FSNode) (st : WSt) :
    (∀ x ∈ (walkNode P path name n st).msgs, isFinishedMsg x = false)
    ∧ (∀ e, (walkNode P path name n st).res = WalkR.fail e →
        ∃ s, e = FsErr.other s) := by
  cases n with
  | file sz =>
    rw [walkNode]
    split
    · exact ⟨fun x hx => by simp at hx, fun e he => by simp at he⟩
    · exact ⟨fun x hx => by simp at hx, fun e he => by simp at he⟩
  | linkDir es =>
    rw [walkNode]
    split
    · exact ⟨fun x hx => by simp at hx, fun e he => by simp at he⟩
    · dsimp only
      exact ⟨fun x hx => mem_progOpt _ _ _ _ x hx, fun e he => by simp at he⟩
  | dir es =>
    rw [walkNode]
    split
    · exact ⟨fun x hx => by simp at hx, fun e he => by simp at he⟩
    · dsimp only
      split
      · exact ⟨fun x hx => mem_progOpt _ _ _ _ x hx, fun e he => by simp at he⟩
      · split
        · exact ⟨fun x hx => mem_progOpt _ _ _ _ x hx, fun e he => by simp at he⟩
        · split
          · split
            · exact ⟨fun x hx => mem_progOpt _ _ _ _ x hx, fun e he => by simp at he⟩
            · exact ⟨fun x hx => mem_progOpt _ _ _ _ x hx, fun e he => by simp at he⟩
            · refine ⟨fun x hx => mem_progOpt _ _ _ _ x hx, fun e he => ?_⟩
              simp at he
              rename_i e1 c2 hne heq
              subst he
              cases e1 with
              | permission => exact absurd rfl hne
              | other s => exact ⟨s, rfl⟩
            · refine ⟨fun x hx => ?_, fun e he => by simp at he⟩
              rcases List.mem_append.mp hx with h | h
              · exact mem_progOpt _ _ _ _ x h
              · simp at h
                rcases h with rfl | rfl <;> rfl
          · refine ⟨fun x hx => ?_, fun e he => ?_⟩
            · rcases List.mem_append.mp hx with h | h
              · exact mem_progOpt _ _ _ _ x h
              · exact (walkEntries_basic P path es _).1 x h
            · exact (walkEntries_basic P path es _).2 e (by simpa using he)
  | badDir e0 =>
    rw [walkNode]
    split
    · exact ⟨fun x hx => by simp at hx, fun e he => by simp at he⟩
    · dsimp only
      split
      · exact ⟨fun x hx => mem_progOpt _ _ _ _ x hx, fun e he => by simp at he⟩
      · split
        · exact ⟨fun x hx => mem_progOpt _ _ _ _ x hx, fun e he => by simp at he⟩
        · split
          · split
            · exact ⟨fun x hx => mem_progOpt _ _ _ _ x hx, fun e he => by simp at he⟩
            · exact ⟨fun x hx => mem_progOpt _ _ _ _ x hx, fun e he => by simp at he⟩
            · refine ⟨fun x hx => mem_progOpt _ _ _ _ x hx, fun e he => ?_⟩
              simp at he
              rename_i e1 c2 hne heq
              subst he
              cases e1 with
              | permission => exact absurd rfl hne
              | other s => exact ⟨s, rfl⟩
            · exact ⟨fun x hx => mem_progOpt _ _ _ _ x hx, fun e he => by simp at he⟩
          · split
            · exact ⟨fun x hx => mem_progOpt _ _ _ _ x hx, fun e he => by simp at he⟩
            · split
              · exact ⟨fun x hx => mem_progOpt _ _ _ _ x hx, fun e he => by simp at he⟩
              · rename_i hnp
                refine ⟨fun x hx => mem_progOpt _ _ _ _ x hx, fun e he => ?_⟩
                simp at he
                subst he
                cases e0 with
                | permission => exact absurd rfl hnp
                | other s => exact ⟨s, rfl⟩

theorem walkEntries_basic (P : ScanParams) (path : String)
    (es : List (String × FSNode)) (st : WSt) :
    (∀ x ∈ (walkEntries P path es st).msgs, isFinishedMsg x = false)
    ∧ (∀ e, (walkEntries P path es st).res = WalkR.fail e →
        ∃ s, e = FsErr.other s) := by
  match es with
  | [] =>
    rw [walkEntries]
    exact ⟨fun x hx => by simp at hx, fun e he => by simp at he⟩
  | (nm, child) :: rest =>
    rw [walkEntries]
    dsimp only
    split
    · refine ⟨fun x hx => ?_, fun e he => ?_⟩
      · rcases List.mem_append.mp hx with h | h
        · exact (walkNode_basic P (joinRel path nm) nm child st).1 x h
        · exact (walkEntries_basic P path rest _).1 x h
      · exact (walkEntries_basic P path rest _).2 e (by simpa using he)
    · refine ⟨fun x hx => ?_, fun e he => ?_⟩
      · exact (walkNode_basic P (joinRel path nm) nm child st).1 x hx
      · exact (walkNode_basic P (joinRel path nm) nm child st).2 e he
end

mutual
theorem dirSize_perm_shape (n : FSNode) (calls : Nat) (h : permOnly n = true) :
    (∃ s c, dirSize none n calls = (SizeR.ok s, c))
    ∨ (∃ c, dirSize none n calls = (SizeR.fail FsErr.permission, c)) := by
  cases n with
  | file sz =>
    left
    exact ⟨sz, calls + 1, by simp [dirSize, isCanceled_none]⟩
  | linkDir es =>
    left
    exact ⟨0, calls + 1, by simp [dirSize, isCanceled_none]⟩
  | badDir e0 =>
    right
    have he : e0 = FsErr.permission := by
      simpa [permOnly] using h
    subst he
    exact ⟨calls + 2, by simp [dirSize, isCanceled_none]⟩
  | dir es =>
    have h2 : permOnlyEntries es = true := by simpa [permOnly] using h
    have hsh := dirSizeEntries_perm_shape es (calls + 1) h2
    rw [dirSize]
    rw [isCanceled_none]
    simpa using hsh

theorem dirSizeEntries_perm_shape (es : List (String × FSNode)) (calls : Nat)
    (h : permOnlyEntries es = true) :
    (∃ s c, dirSizeEntries none es calls = (SizeR.ok s, c))
    ∨ (∃ c, dirSizeEntries none es calls = (SizeR.fail FsErr.permission, c)) := by
  match es with
  | [] =>
    left
    exact ⟨0, calls, rfl⟩
  | (nm, child) :: rest =>
    have h1 : permOnly child = true := by
      simp [permOnlyEntries] at h
      exact h.1
    have h2 : permOnlyEntries rest = true := by
      simp [permOnlyEntries] at h
      exact h.2
    rw [dirSizeEntries]
    rcases dirSize_perm_shape child calls h1 with ⟨s, c, heq⟩ | ⟨c, heq⟩
    · rw [heq]
      dsimp only
      rcases dirSizeEntries_perm_shape rest c h2 with ⟨s2, c2, heq2⟩ | ⟨c2, heq2⟩
      · rw [heq2]
        left
        exact ⟨s + s2, c2, rfl⟩
      · rw [heq2]
        right
        exact ⟨c2, rfl⟩
    · rw [heq]
      right
      exact ⟨c, rfl⟩
end

mutual
theorem walkNode_permOk (P : ScanParams) (path name : String) (n : FSNode) (st : WSt)
    (hc : P.cancelAt = none) (hp : permOnly n = true) :
    (walkNode P path name n st).res = WalkR.ok := by
  have hnc : ∀ k, isCanceled P.cancelAt k = false := by
    intro k
    rw [hc]
    exact isCanceled_none k
  cases n with
  | file sz =>
    rw [walkNode]
    rw [hnc st.calls]
    rfl
  | linkDir es =>
    rw [walkNode]
    rw [hnc st.calls]
    rfl
  | dir es =>
    have h2 : permOnlyEntries es = true := by simpa [permOnly] using hp
    rw [walkNode, if_neg (by simp [hnc])]
    dsimp only
    split
    · rfl
    · split
      · rfl
      · split
        · have hsh2 := dirSize_perm_shape (FSNode.dir es) (st.calls + 1) hp
          split
          · rename_i c2 heq
            rw [hc] at heq
            rcases hsh2 with ⟨s, c3, he2⟩ | ⟨c3, he2⟩ <;> rw [he2] at heq <;> simp at heq
          · rfl
          · rename_i e1 c2 hne heq
            rw [hc] at heq
            rcases hsh2 with ⟨s, c3, he2⟩ | ⟨c3, he2⟩ <;> rw [he2] at heq
            · simp at heq
            · simp at heq
              exact absurd (hne heq.1.symm) (fun hh => hh)
          · rfl
        · have hres := walkEntries_permOk P path es
            { visited := st.visited + 1, found := st.found,
              calls := st.calls + 1, ticks := st.ticks + 1 } hc h2
          simpa using hres
  | badDir e0 =>
    have he : e0 = FsErr.permission := by simpa [permOnly] using hp
    subst he
    rw [walkNode, if_neg (by simp [hnc])]
    dsimp only
    split
    · rfl
    · split
      · rfl
      · split
        · have hsh2 := dirSize_perm_shape (FSNode.badDir FsErr.permission)
            (st.calls + 1) hp
          split
          · rename_i c2 heq
            rw [hc] at heq
            rcases hsh2 with ⟨s, c3, he2⟩ | ⟨c3, he2⟩ <;> rw [he2] at heq <;> simp at heq
          · rfl
          · rename_i e1 c2 hne heq
            rw [hc] at heq
            rcases hsh2 with ⟨s, c3, he2⟩ | ⟨c3, he2⟩ <;> rw [he2] at heq
            · simp at heq
            · simp at heq
              exact absurd (hne heq.1.symm) (fun hh => hh)
          · rfl
        · rw [if_neg (by simp [hnc])]
          rw [if_pos rfl]

theorem walkEntries_permOk (P : ScanParams) (path : String)
    (es : List (String × FSNode)) (st : WSt)
    (hc : P.cancelAt = none) (hp : permOnlyEntries es = true) :
    (walkEntries P path es st).res = WalkR.ok := by
  match es with
  | [] =>
    rw [walkEntries]
  | (nm, child) :: rest =>
    have h1 : permOnly child = true := by
      simp [permOnlyEntries] at hp
      exact hp.1
    have h2 : permOnlyEntries rest = true := by
      simp [permOnlyEntries] at hp
      exact hp.2
    rw [walkEntries]
    dsimp only
    split
    · exact walkEntries_permOk P path rest _ hc h2
    · rename_i hres
      exact absurd (walkNode_permOk P (joinRel path nm) nm child st hc h1) hres
end

mutual
theorem walkNode_warns (P : ScanParams) (path name : String) (n : FSNode) (st : WSt) :
    ∀ w ∈ (walkNode P path name n st).warns,
      ∃ p, w = "permission denied: " ++ p := by
  cases n with
  | file sz =>
    rw [walkNode]
    split
    · intro w hw; simp at hw
    · intro w hw; simp at hw
  | linkDir es =>
    rw [walkNode]
    split
    · intro w hw; simp at hw
    · intro w hw; simp at hw
  | dir es =>
    rw [walkNode]
    split
    · intro w hw; simp at hw
    · dsimp only
      split
      · intro w hw; simp at hw
      · split
        · intro w hw; simp at hw
        · split
          · split
            · intro w hw; simp at hw
            · intro w hw
              rcases List.mem_singleton.mp hw with rfl
              exact ⟨path, rfl⟩
            · intro w hw; simp at hw
            · intro w hw; simp at hw
          · intro w hw
            exact walkEntries_warns P path es _ w (by simpa using hw)
  | badDir e0 =>
    rw [walkNode]
    split
    · intro w hw; simp at hw
    · dsimp only
      split
      · intro w hw; simp at hw
      · split
        · intro w hw; simp at hw
        · split
          · split
            · intro w hw; simp at hw
            · intro w hw
              rcases List.mem_singleton.mp hw with rfl
              exact ⟨path, rfl⟩
            · intro w hw; simp at hw
            · intro w hw; simp at hw
          · split
            · intro w hw; simp at hw
            · split
              · intro w hw
                rcases List.mem_singleton.mp hw with rfl
                exact ⟨path, rfl⟩
              · intro w hw; simp at hw

theorem walkEntries_warns (P : ScanParams) (path : String)
    (es : List (String × FSNode)) (st : WSt) :
    ∀ w ∈ (walkEntries P path es st).warns,
      ∃ p, w = "permission denied: " ++ p := by
  match es with
  | [] =>
    rw [walkEntries]
    intro w hw
    simp at hw
  | (nm, child) :: rest =>
    rw [walkEntries]
    dsimp only
    split
    · intro w hw
      rcases List.mem_append.mp hw with h | h
      · exact walkNode_warns P (joinRel path nm) nm child st w h
      · exact walkEntries_warns P path rest _ w h
    · intro w hw
      exact walkNode_warns P (joinRel path nm) nm child st w hw
end

theorem runScan_finished_mem (P : ScanParams) (tree : FSNode)
    (ws : List String) (e : Option FsErr) (v f : Nat)
    (hm : ScanMsg.finished P.id ws e v f ∈ runScanStream P tree) :
    e = (match scanResult P tree with
         | WalkR.fail e2 => some e2
         | _ => none) := by
  unfold runScanStream at hm
  rcases List.mem_append.mp hm with h | h
  · have := (walkNode_basic P (".") (".") tree
      { visited := 0, found := 0, calls := 0, ticks := 0 }).1 _ h
    simp [isFinishedMsg] at this
  · rcases List.mem_cons.mp h with heq | h2
    · simp at heq
    · rcases List.mem_singleton.mp h2 with heq2
      have he := (ScanMsg.finished.injEq _ _ _ _ _ _ _ _ _ _).mp heq2
      rw [he.2.2.1]
      rfl

theorem runScan_finished_warns (P : ScanParams) (tree : FSNode)
    (ws : List String) (e : Option FsErr) (v f : Nat)
    (hm : ScanMsg.finished P.id ws e v f ∈ runScanStream P tree) :
    ∀ w ∈ ws, ∃ p, w = "permission denied: " ++ p := by
  unfold runScanStream at hm
  rcases List.mem_append.mp hm with h | h
  · have := (walkNode_basic P (".") (".") tree
      { visited := 0, found := 0, calls := 0, ticks := 0 }).1 _ h
    simp [isFinishedMsg] at this
  · rcases List.mem_cons.mp h with heq | h2
    · simp at heq
    · rcases List.mem_singleton.mp h2 with heq2
      have he := (ScanMsg.finished.injEq _ _ _ _ _ _ _ _ _ _).mp heq2
      rw [he.2.1]
      exact walkNode_warns P (".") (".") tree
        { visited := 0, found := 0, calls := 0, ticks := 0 }

/-- C4: across every scan, the completion event's fatal error is never
a permission error (only non-permission I/O errors surface); when the
scan is not cancelled and every listing failure in the tree is a
permission failure, the scan completes with no error (permission
errors degrade to warnings and the subtree is skipped); and every
warning carried in the completion event is a permission-denied record
for some path. -/
theorem scan_permission_nonfatal (P : ScanParams) (tree : FSNode) :
    (∀ ws e v f, ScanMsg.finished P.id ws (some e) v f ∈ runScanStream P tree →
      ∃ s, e = FsErr.other s)
    ∧ (P.cancelAt = none → permOnly tree = true →
      ∀ ws e v f, ScanMsg.finished P.id ws e v f ∈ runScanStream P tree →
        e = none)
    ∧ (∀ ws e v f, ScanMsg.finished P.id ws e v f ∈ runScanStream P tree →
      ∀ w ∈ ws, ∃ p, w = "permission denied: " ++ p) := by
  refine ⟨?_, ?_, ?_⟩
  · intro ws e v f hm
    have hpin := runScan_finished_mem P tree ws (some e) v f hm
    cases hres : scanResult P tree with
    | ok =>
      rw [hres] at hpin
      simp at hpin
    | cancelled =>
      rw [hres] at hpin
      simp at hpin
    | fail e2 =>
      rw [hres] at hpin
      simp at hpin
      rcases (walkNode_basic P (".") (".") tree
        { visited := 0, found := 0, calls := 0, ticks := 0 }).2 e2 hres with ⟨s, hs⟩
      exact ⟨s, by rw [hpin, hs]⟩
  · intro hc hp ws e v f hm
    have hpin := runScan_finished_mem P tree ws e v f hm
    have hok : scanResult P tree = WalkR.ok :=
      walkNode_permOk P (".") (".") tree
        { visited := 0, found := 0, calls := 0, ticks := 0 } hc hp
    rw [hok] at hpin
    exact hpin
  · intro ws e v f hm
    exact runScan_finished_warns P tree ws e v f hm

/-- C5: the walk halts at the cancellation check without emitting
anything from the cancelled subtree (the check runs before entering
any directory), the stream always carries exactly one terminal
completion event, positioned last, and when the walk ended by
observing cancellation that completion event carries no error:
cancellation is never surfaced as an error. -/
theorem scan_cancellation_silent (P : ScanParams) (tree : FSNode) :
    (scanResult P tree = WalkR.cancelled →
      ∀ ws e v f, ScanMsg.finished P.id ws e v f ∈ runScanStream P tree →
        e = none)
    ∧ ((runScanStream P tree).filter (fun x => isFinishedMsg x)).length = 1
    ∧ (∃ ws e v f, (runScanStream P tree).getLast? =
        some (ScanMsg.finished P.id ws e v f))
    ∧ (∀ (st2 : WSt) (path name : String) (n : FSNode),
        isCanceled P.cancelAt st2.calls = true →
        (walkNode P path name n st2).msgs = []
        ∧ (walkNode P path name n st2).res = WalkR.cancelled) := by
  refine ⟨?_, ?_, ?_, ?_⟩
  · intro hres ws e v f hm
    have hpin := runScan_finished_mem P tree ws e v f hm
    rw [hres] at hpin
    exact hpin
  · unfold runScanStream
    rw [List.filter_append]
    have h1 : ((walkNode P (".") (".") tree
        { visited := 0, found := 0, calls := 0, ticks := 0 }).msgs.filter
        (fun x => isFinishedMsg x)) = [] := by
      apply List.filter_eq_nil_iff.mpr
      intro x hx
      have := (walkNode_basic P (".") (".") tree
        { visited := 0, found := 0, calls := 0, ticks := 0 }).1 x hx
      simp [this]
    rw [h1]
    rfl
  · unfold runScanStream
    have hl : ∀ (l : List ScanMsg) (a b : ScanMsg),
        (l ++ [a, b]).getLast? = some b := by
      intro l a b
      rw [show l ++ [a, b] = (l ++ [a]) ++ [b] by rw [List.append_assoc]; rfl]
      exact List.getLast?_concat _
    exact ⟨_, _, _, _, hl _ _ _⟩
  · intro st2 path name n hcz
    constructor
    · rw [walkNode]
      rw [if_pos hcz]
    · rw [walkNode]
      rw [if_pos hcz]

/-- Witness for C4: a scan over a tree whose one listing failure is an
I/O error surfaces it as the completion error, and a scan whose one
listing failure is a permission error completes with no error and a
permission-denied warning. -/
theorem scan_permission_nonfatal_witness :
    (∃ s, FsErr.other "disk" = FsErr.other s)
    ∧ (none : Option FsErr) = none := by
  constructor
  · exact (scan_permission_nonfatal
      { Targets := [], SkipDirs := [], MaxDepth := 0, id := 1, cancelAt := none,
        throttle := fun _ => false }
      (FSNode.dir [("bad", FSNode.badDir (FsErr.other "disk"))])).1
      [] (FsErr.other "disk") 2 0 (by decide)
  · exact (scan_permission_nonfatal
      { Targets := [], SkipDirs := [], MaxDepth := 0, id := 1, cancelAt := none,
        throttle := fun _ => false }
      (FSNode.dir [("bad", FSNode.badDir FsErr.permission)])).2.1
      rfl (by decide) ["permission denied: bad"] none 2 0 (by decide)

/-- Witness for C5: a scan cancelled before its first callback
completes with no error, and the cancelled subtree call emits
nothing. -/
theorem scan_cancellation_silent_witness :
    (none : Option FsErr) = none
    ∧ (walkNode
        { Targets := [], SkipDirs := [], MaxDepth := 0, id := 1,
          cancelAt := some 0, throttle := fun _ => false }
        (".") (".") (FSNode.dir [("bad", FSNode.badDir FsErr.permission)])
        { visited := 0, found := 0, calls := 0, ticks := 0 }).res =
      WalkR.cancelled := by
  constructor
  · exact (scan_cancellation_silent
      { Targets := [], SkipDirs := [], MaxDepth := 0, id := 1,
        cancelAt := some 0, throttle := fun _ => false }
      (FSNode.dir [("bad", FSNode.badDir FsErr.permission)])).1
      (by decide) [] none 0 0 (by decide)
  · exact ((scan_cancellation_silent
      { Targets := [], SkipDirs := [], MaxDepth := 0, id := 1,
        cancelAt := some 0, throttle := fun _ => false }
      (FSNode.dir [("bad", FSNode.badDir FsErr.permission)])).2.2.2
      { visited := 0, found := 0, calls := 0, ticks := 0 }
      (".") (".") (FSNode.dir [("bad", FSNode.badDir FsErr.permission)])
      (by decide)).2

theorem strOfComps_cons_cons (n m : String) (rest : List String) :
    (strOfComps (n :: m :: rest)).data =
      n.data ++ '/' :: (strOfComps (m :: rest)).data := by
  rw [strOfComps]
  rw [String.data_append, String.data_append]
  have hsl : ("/").data = ['/'] := rfl
  rw [hsl]
  simp

theorem strOfComps_shape (n : String) (d : List String) :
    ∃ r, (strOfComps (n :: d)).data = n.data ++ r
      ∧ (r = [] ∨ ∃ t, r = '/' :: t) := by
  match d with
  | [] =>
    refine ⟨[], ?_, Or.inl rfl⟩
    simp [strOfComps]
  | m :: rest =>
    exact ⟨'/' :: (strOfComps (m :: rest)).data, strOfComps_cons_cons n m rest,
      Or.inr ⟨_, rfl⟩⟩

theorem strOfComps_append_data (c : List String) :
    ∀ y, c ≠ [] → y ≠ [] →
    (strOfComps (c ++ y)).data =
      (strOfComps c).data ++ '/' :: (strOfComps y).data := by
  match c with
  | [] =>
    intro y hc hy
    exact absurd rfl hc
  | [x] =>
    intro y hc hy
    match y with
    | m :: rest =>
      rw [show [x] ++ m :: rest = x :: m :: rest from rfl]
      rw [strOfComps_cons_cons]
      rfl
  | x :: x2 :: c2 =>
    intro y hc hy
    rw [show (x :: x2 :: c2) ++ y = x :: x2 :: (c2 ++ y) from rfl]
    rw [strOfComps_cons_cons x x2 (c2 ++ y)]
    rw [show (x2 :: (c2 ++ y) : List String) = (x2 :: c2) ++ y from rfl]
    rw [strOfComps_append_data (x2 :: c2) y (by simp) hy]
    rw [strOfComps_cons_cons x x2 c2]
    simp [List.append_assoc]

theorem tok_core (x : List Char) :
    ∀ (y r1 r2 : List Char), x ≠ [] → y ≠ [] → '/' ∉ x → '/' ∉ y → x ≠ y →
    (r1 = [] ∨ ∃ t, r1 = '/' :: t) → (r2 = [] ∨ ∃ t, r2 = '/' :: t) →
    (x ++ r1 ≠ y ++ r2) ∧ ¬((x ++ r1) ++ ['/'] <+: y ++ r2) := by
  induction x with
  | nil =>
    intro y r1 r2 hx
    exact absurd rfl hx
  | cons a x2 ih =>
    intro y r1 r2 hx hy hxs hys hxy hr1 hr2
    match y with
    | b :: y2 =>
      have hxs2 : '/' ∉ x2 := fun h => hxs (List.mem_cons_of_mem a h)
      have hys2 : '/' ∉ y2 := fun h => hys (List.mem_cons_of_mem b h)
      constructor
      · intro heq
        rw [List.cons_append, List.cons_append] at heq
        injection heq with hab htail
        subst hab
        match x2, y2, hxy, hxs2, hys2, htail with
        | [], [], hxy, _, _, _ => exact hxy rfl
        | [], c :: y2p, _, _, hys2, htail =>
          rcases hr1 with rfl | ⟨t, rfl⟩
          · simp at htail
          · rw [List.nil_append, List.cons_append] at htail
            injection htail with hc _
            exact hys2 (by rw [hc]; exact List.mem_cons_self _ _)
        | d :: x2p, [], _, hxs2, _, htail =>
          rcases hr2 with rfl | ⟨t, rfl⟩
          · simp at htail
          · rw [List.cons_append, List.nil_append] at htail
            injection htail with hd _
            exact hxs2 (by rw [← hd]; exact List.mem_cons_self _ _)
        | d :: x2p, c :: y2p, hxy, hxs2, hys2, htail =>
          exact (ih (c :: y2p) r1 r2 (by simp) (by simp) hxs2 hys2
            (fun h => hxy (by rw [h])) hr1 hr2).1 htail
      · intro hpre
        rw [List.cons_append, List.cons_append, List.cons_append,
          List.cons_prefix_cons] at hpre
        obtain ⟨hab, htail⟩ := hpre
        subst hab
        match x2, y2, hxy, hxs2, hys2, htail with
        | [], [], hxy, _, _, _ => exact hxy rfl
        | [], c :: y2p, _, _, hys2, htail =>
          rcases hr1 with rfl | ⟨t, rfl⟩
          · rw [List.nil_append, List.nil_append, List.cons_append,
              List.cons_prefix_cons] at htail
            exact hys2 (by rw [← htail.1]; exact List.mem_cons_self _ _)
          · rw [List.nil_append, List.cons_append, List.cons_append,
              List.cons_prefix_cons] at htail
            exact hys2 (by rw [← htail.1]; exact List.mem_cons_self _ _)
        | d :: x2p, [], _, hxs2, _, htail =>
          rcases hr2 with rfl | ⟨t, rfl⟩
          · rw [List.nil_append] at htail
            rw [List.cons_append, List.cons_append, List.prefix_nil] at htail
            simp at htail
          · rw [List.nil_append] at htail
            rw [List.cons_append, List.cons_append, List.cons_prefix_cons] at htail
            exact hxs2 (by rw [htail.1]; exact List.mem_cons_self _ _)
        | d :: x2p, c :: y2p, hxy, hxs2, hys2, htail =>
          exact (ih (c :: y2p) r1 r2 (by simp) (by simp) hxs2 hys2
            (fun h => hxy (by rw [h])) hr1 hr2).2 htail

theorem validName_facts (n : String) (h : validName n = true) :
    n.data ≠ [] ∧ '/' ∉ n.data := by
  simp [validName] at h
  exact ⟨h.1.1, h.2⟩

theorem strOfComps_ne_dot (c : List String) (hc : c ≠ []) (hv : compsValid c) :
    strOfComps c ≠ "." := by
  match c with
  | [x] =>
    have hx := hv x (List.mem_singleton_self x)
    simp [validName] at hx
    intro h
    have hdata : x.data = ['.'] := by
      have h2 := congrArg String.data h
      simpa [strOfComps] using h2
    exact hx.1.2 hdata
  | x :: m :: rest =>
    intro h
    have h2 := congrArg String.data h
    rw [strOfComps_cons_cons] at h2
    have hx := (validName_facts x (hv x (List.mem_cons_self _ _))).1
    rcases hdx : x.data with _ | ⟨ch, tl⟩
    · exact hx hdx
    · rw [hdx, List.cons_append] at h2
      rw [show (".").data = ['.'] from rfl] at h2
      injection h2 with _ h3
      simp at h3

theorem joinRel_render (c : List String) (nm : String) (hv : compsValid c) :
    joinRel (renderPath c) nm = renderPath (c ++ [nm]) := by
  match c with
  | [] =>
    rw [renderPath, if_pos rfl]
    rw [joinRel, if_pos rfl]
    rw [List.nil_append, renderPath, if_neg (by simp)]
    rfl
  | x :: c2 =>
    rw [renderPath, if_neg (by simp)]
    rw [joinRel, if_neg (strOfComps_ne_dot (x :: c2) (by simp) hv)]
    rw [renderPath, if_neg (by simp)]
    apply String.ext
    rw [String.data_append, String.data_append]
    rw [strOfComps_append_data (x :: c2) [nm] (by simp) (by simp)]
    rw [show ("/").data = ['/'] from rfl]
    rw [show strOfComps [nm] = nm from rfl]
    simp

theorem render_sep (c : List String) (n1 n2 : String) (d1 d2 : List String)
    (h1 : validName n1 = true) (h2 : validName n2 = true) (hne : n1 ≠ n2) :
    sepPaths (renderPath (c ++ n1 :: d1)) (renderPath (c ++ n2 :: d2)) := by
  have hf1 := validName_facts n1 h1
  have hf2 := validName_facts n2 h2
  have hdne : n1.data ≠ n2.data := fun h => hne (String.ext h)
  rcases strOfComps_shape n1 d1 with ⟨r1, hr1, hr1s⟩
  rcases strOfComps_shape n2 d2 with ⟨r2, hr2, hr2s⟩
  have T12 := tok_core n1.data n2.data r1 r2 hf1.1 hf2.1 hf1.2 hf2.2 hdne hr1s hr2s
  have T21 := tok_core n2.data n1.data r2 r1 hf2.1 hf1.1 hf2.2 hf1.2
    (fun h => hdne h.symm) hr2s hr1s
  match c with
  | [] =>
    rw [List.nil_append, List.nil_append]
    rw [renderPath, if_neg (by simp), renderPath, if_neg (by simp)]
    refine ⟨?_, ?_, ?_⟩
    · intro h
      have hd := congrArg String.data h
      rw [hr1, hr2] at hd
      exact T12.1 hd
    · intro h
      unfold insidePath at h
      rw [hr1, hr2] at h
      exact T12.2 h
    · intro h
      unfold insidePath at h
      rw [hr1, hr2] at h
      exact T21.2 h
  | e :: c2 =>
    have hA1 := strOfComps_append_data (e :: c2) (n1 :: d1) (by simp) (by simp)
    have hA2 := strOfComps_append_data (e :: c2) (n2 :: d2) (by simp) (by simp)
    rw [renderPath, if_neg (by simp), renderPath, if_neg (by simp)]
    refine ⟨?_, ?_, ?_⟩
    · intro h
      have hd := congrArg String.data h
      rw [hA1, hA2] at hd
      have hd2 := List.append_cancel_left hd
      injection hd2 with _ hd3
      rw [hr1, hr2] at hd3
      exact T12.1 hd3
    · intro h
      unfold insidePath at h
      rw [hA1, hA2] at h
      rw [show ((strOfComps (e :: c2)).data ++
          '/' :: (strOfComps (n1 :: d1)).data) ++ ['/'] =
          (strOfComps (e :: c2)).data ++
          '/' :: ((strOfComps (n1 :: d1)).data ++ ['/']) by simp] at h
      rw [List.prefix_append_right_inj, List.cons_prefix_cons] at h
      have h3 := h.2
      rw [hr1, hr2] at h3
      exact T12.2 h3
    · intro h
      unfold insidePath at h
      rw [hA1, hA2] at h
      rw [show ((strOfComps (e :: c2)).data ++
          '/' :: (strOfComps (n2 :: d2)).data) ++ ['/'] =
          (strOfComps (e :: c2)).data ++
          '/' :: ((strOfComps (n2 :: d2)).data ++ ['/']) by simp] at h
      rw [List.prefix_append_right_inj, List.cons_prefix_cons] at h
      have h3 := h.2
      rw [hr1, hr2] at h3
      exact T21.2 h3

theorem rowPathsOf_append (l1 l2 : List ScanMsg) :
    rowPathsOf (l1 ++ l2) = rowPathsOf l1 ++ rowPathsOf l2 := by
  unfold rowPathsOf
  exact List.filterMap_append l1 l2 _

theorem rowPathsOf_progOpt (b : Bool) (id v f : Nat) :
    rowPathsOf (if b = true then [ScanMsg.progress id v f] else []) = [] := by
  split <;> rfl


theorem rows_empty_nil (Q : String → Prop) :
    (∀ p ∈ rowPathsOf ([] : List ScanMsg), Q p)
    ∧ List.Pairwise sepPaths (rowPathsOf ([] : List ScanMsg)) :=
  ⟨fun p hp => absurd hp (List.not_mem_nil p), List.Pairwise.nil⟩

theorem rows_empty_progOpt (Q : String → Prop) (b : Bool) (id v f : Nat) :
    (∀ p ∈ rowPathsOf (if b = true then [ScanMsg.progress id v f] else []), Q p)
    ∧ List.Pairwise sepPaths
        (rowPathsOf (if b = true then [ScanMsg.progress id v f] else [])) := by
  rw [rowPathsOf_progOpt]
  exact ⟨fun p hp => absurd hp (List.not_mem_nil p), List.Pairwise.nil⟩

mutual
/-- Rows emitted while walking a well-formed node at `renderPath c` all
lie at or below `c`, and are pairwise distinct and non-nested. -/
theorem walkNode_rows (P : ScanParams) (c : List String) (nm : String)
    (n : FSNode) (st : WSt) (hwf : wfTree n = true) (hc : compsValid c) :
    (∀ p ∈ rowPathsOf (walkNode P (renderPath c) nm n st).msgs,
      ∃ d, p = renderPath (c ++ d))
    ∧ List.Pairwise sepPaths
        (rowPathsOf (walkNode P (renderPath c) nm n st).msgs) := by
  cases n with
  | file sz =>
    rw [walkNode]
    split
    · exact rows_empty_nil _
    · exact rows_empty_nil _
  | linkDir es =>
    rw [walkNode]
    split
    · exact rows_empty_nil _
    · dsimp only
      exact rows_empty_progOpt _ _ _ _ _
  | dir es =>
    have hwfe : wfEntries es = true := by
      simp [wfTree] at hwf
      exact hwf
    rw [walkNode]
    split
    · exact rows_empty_nil _
    · dsimp only
      split
      · exact rows_empty_progOpt _ _ _ _ _
      · split
        · exact rows_empty_progOpt _ _ _ _ _
        · split
          · split
            · exact rows_empty_progOpt _ _ _ _ _
            · exact rows_empty_progOpt _ _ _ _ _
            · exact rows_empty_progOpt _ _ _ _ _
            · dsimp only
              rw [rowPathsOf_append, rowPathsOf_progOpt, List.nil_append]
              refine ⟨fun p hp => ?_, ?_⟩
              · simp [rowPathsOf] at hp
                exact ⟨[], by rw [List.append_nil]; exact hp⟩
              · simp [rowPathsOf]
          · dsimp only
            rw [rowPathsOf_append, rowPathsOf_progOpt, List.nil_append]
            refine ⟨fun p hp => ?_, ?_⟩
            · rcases (walkEntries_rows P c es _ hwfe hc).1 p hp
                with ⟨nm2, d, _, _, he⟩
              exact ⟨nm2 :: d, he⟩
            · exact (walkEntries_rows P c es _ hwfe hc).2
  | badDir e0 =>
    rw [walkNode]
    split
    · exact rows_empty_nil _
    · dsimp only
      split
      · exact rows_empty_progOpt _ _ _ _ _
      · split
        · exact rows_empty_progOpt _ _ _ _ _
        · split
          · split
            · exact rows_empty_progOpt _ _ _ _ _
            · exact rows_empty_progOpt _ _ _ _ _
            · exact rows_empty_progOpt _ _ _ _ _
            · exact rows_empty_progOpt _ _ _ _ _
          · split
            · exact rows_empty_progOpt _ _ _ _ _
            · split
              · exact rows_empty_progOpt _ _ _ _ _
              · exact rows_empty_progOpt _ _ _ _ _

/-- Rows emitted by the child loop at `renderPath c` over a well-formed
entry list each lie under a distinct valid child name, and are pairwise
distinct and non-nested. -/
theorem walkEntries_rows (P : ScanParams) (c : List String)
    (es : List (String × FSNode)) (st : WSt)
    (hwf : wfEntries es = true) (hc : compsValid c) :
    (∀ p ∈ rowPathsOf (walkEntries P (renderPath c) es st).msgs,
      ∃ nm d, nm ∈ es.map Prod.fst ∧ validName nm = true
        ∧ p = renderPath (c ++ nm :: d))
    ∧ List.Pairwise sepPaths
        (rowPathsOf (walkEntries P (renderPath c) es st).msgs) := by
  match es with
  | [] =>
    rw [walkEntries]
    exact rows_empty_nil _
  | (nm0, child) :: rest =>
    have hwf' := hwf
    simp [wfEntries] at hwf'
    obtain ⟨⟨⟨hv0, hnin⟩, hwfc⟩, hwfr⟩ := hwf'
    have hc' : compsValid (c ++ [nm0]) := by
      intro x hx
      rcases List.mem_append.mp hx with h | h
      · exact hc x h
      · simp at h
        subst h
        exact hv0
    rw [walkEntries]
    dsimp only
    rw [joinRel_render c nm0 hc]
    have W := walkNode_rows P (c ++ [nm0]) nm0 child st hwfc hc'
    split
    · dsimp only
      rw [rowPathsOf_append]
      have E := walkEntries_rows P c rest
        (walkNode P (renderPath (c ++ [nm0])) nm0 child st).st hwfr hc
      refine ⟨fun p hp => ?_, ?_⟩
      · rcases List.mem_append.mp hp with h | h
        · rcases W.1 p h with ⟨d, hd⟩
          refine ⟨nm0, d, by simp, hv0, ?_⟩
          rw [hd]
          simp
        · rcases E.1 p h with ⟨nm2, d, hmem, hv2, hd⟩
          refine ⟨nm2, d, ?_, hv2, hd⟩
          rw [List.map_cons]
          exact List.mem_cons_of_mem _ hmem
      · rw [List.pairwise_append]
        refine ⟨W.2, E.2, ?_⟩
        intro a ha b hb
        rcases W.1 a ha with ⟨da, hda⟩
        rcases E.1 b hb with ⟨nm2, db, hmem, hv2, hdb⟩
        have hne : nm0 ≠ nm2 := by
          intro he
          rcases List.mem_map.mp hmem with ⟨pr, hpr, hfst⟩
          apply hnin pr.2
          have hpr2 : pr = (nm0, pr.2) := by
            rw [he, ← hfst]
          rw [← hpr2]
          exact hpr
        rw [hda, hdb]
        rw [show (c ++ [nm0]) ++ da = c ++ nm0 :: da by simp]
        exact render_sep c nm0 nm2 da db hv0 hv2 hne
    · refine ⟨fun p hp => ?_, W.2⟩
      rcases W.1 p hp with ⟨d, hd⟩
      refine ⟨nm0, d, by simp, hv0, ?_⟩
      rw [hd]
      simp
end

/-- C3: leaf reporting. When a directory's base name matches the target
catalog and its size computation succeeds, `runScanStream` emits the
discovery event, returns `SkipDir`, and never descends into the match,
so over any well-formed tree (distinct, legal sibling names, as
`ReadDir` guarantees) the reported row paths are pairwise distinct
(each match is reported exactly once) and no reported path lies inside
another reported path (a nested match inside a reported match is never
itself reported). -/
theorem scan_leaf_reports (P : ScanParams) (tree : FSNode)
    (hwf : wfTree tree = true) :
    (rowPathsOf (runScanStream P tree)).Nodup
    ∧ List.Pairwise (fun p q => ¬insidePath p q ∧ ¬insidePath q p)
        (rowPathsOf (runScanStream P tree)) := by
  have W := walkNode_rows P [] (".") tree
    { visited := 0, found := 0, calls := 0, ticks := 0 } hwf
    (fun x hx => absurd hx (List.not_mem_nil x))
  rw [show renderPath ([] : List String) = "." from rfl] at W
  rw [runScanStream]
  rw [rowPathsOf_append]
  rw [show rowPathsOf [ScanMsg.progress P.id
      (walkNode P (".") (".") tree
        { visited := 0, found := 0, calls := 0, ticks := 0 }).st.visited
      (walkNode P (".") (".") tree
        { visited := 0, found := 0, calls := 0, ticks := 0 }).st.found,
      ScanMsg.finished P.id
      (walkNode P (".") (".") tree
        { visited := 0, found := 0, calls := 0, ticks := 0 }).warns
      (match (walkNode P (".") (".") tree
        { visited := 0, found := 0, calls := 0, ticks := 0 }).res with
        | WalkR.fail e => some e
        | _ => none)
      (walkNode P (".") (".") tree
        { visited := 0, found := 0, calls := 0, ticks := 0 }).st.visited
      (walkNode P (".") (".") tree
        { visited := 0, found := 0, calls := 0, ticks := 0 }).st.found] = []
    from rfl]
  rw [List.append_nil]
  refine ⟨?_, ?_⟩
  · exact List.Pairwise.imp (fun h => h.1) W.2
  · exact List.Pairwise.imp (fun h => h.2) W.2

/-- Witness for C3: scanning a project whose matched `node_modules`
directory contains another `node_modules` inside reports exactly the
one row `proj/node_modules`; the row list is duplicate-free and no
reported path lies inside another. -/
theorem scan_leaf_reports_witness :
    rowPathsOf (runScanStream
      { Targets := [("node_modules",
          { Name := "node_modules", Category := "JS" })],
        SkipDirs := [], MaxDepth := 0, id := 1, cancelAt := none,
        throttle := fun _ => false }
      (FSNode.dir [("proj", FSNode.dir [("node_modules",
        FSNode.dir [("pkg", FSNode.dir [("node_modules",
          FSNode.dir [("f", FSNode.file 7)])])])])])) =
      ["proj/node_modules"]
    ∧ (rowPathsOf (runScanStream
        { Targets := [("node_modules",
            { Name := "node_modules", Category := "JS" })],
          SkipDirs := [], MaxDepth := 0, id := 1, cancelAt := none,
          throttle := fun _ => false }
        (FSNode.dir [("proj", FSNode.dir [("node_modules",
          FSNode.dir [("pkg", FSNode.dir [("node_modules",
            FSNode.dir [("f", FSNode.file 7)])])])])]))).Nodup
    ∧ List.Pairwise (fun p q => ¬insidePath p q ∧ ¬insidePath q p)
        (rowPathsOf (runScanStream
          { Targets := [("node_modules",
              { Name := "node_modules", Category := "JS" })],
            SkipDirs := [], MaxDepth := 0, id := 1, cancelAt := none,
            throttle := fun _ => false }
          (FSNode.dir [("proj", FSNode.dir [("node_modules",
            FSNode.dir [("pkg", FSNode.dir [("node_modules",
              FSNode.dir [("f", FSNode.file 7)])])])])]))) :=
  ⟨by decide,
   scan_leaf_reports
    { Targets := [("node_modules",
        { Name := "node_modules", Category := "JS" })],
      SkipDirs := [], MaxDepth := 0, id := 1, cancelAt := none,
      throttle := fun _ => false }
    (FSNode.dir [("proj", FSNode.dir [("node_modules",
      FSNode.dir [("pkg", FSNode.dir [("node_modules",
        FSNode.dir [("f", FSNode.file 7)])])])])])
    (by decide)⟩
